import Mathlib

/-!
Verification of the Bensci multi-source acquisition and deduplication engine.

This file shallowly embeds the core of the repository:
* `benfinder/metadata_tools/models.py` — the `MetadataRecord` data class,
  its `dedup_key`, and the `merge_records` field-merge policy;
* `bensci/metadata_fetcher.py` — `_provider_limit`, `_call_provider`,
  `_balanced_trim`, `_prefer`, `_merge_across_providers`, `fetch_metadata`;
* `benfinder/literature_fetcher.py` — `guess_provider`, the candidate-queue
  construction and the batched-by-current-head download scheduler of
  `download_fulltexts`.

Python strings are modelled as Lean `String`; Python's string truthiness
(`a or b`) becomes `pyOr`; Python `dict`s that the code iterates in insertion
order are modelled as association lists (`List (String × α)`) with
insertion-order-preserving update (`setKey`).
-/

set_option autoImplicit false

/-- Python `a or b` on strings: `b` when `a` is empty, else `a`. -/
def pyOr (a b : String) : String :=
  if a = "" then b else a

/-- Python `str.lower()` (ASCII range, which covers every identifier and
provider name the engine handles), by structural recursion over the
character list so that concrete instances evaluate. -/
def strLower (s : String) : String :=
  ⟨s.data.map Char.toLower⟩

/-- Python `str.strip()`: drop leading and trailing whitespace. -/
def strTrim (s : String) : String :=
  ⟨((s.data.dropWhile Char.isWhitespace).reverse.dropWhile Char.isWhitespace).reverse⟩

/-- Python slicing `s[:n]` by code points. -/
def strTake (s : String) (n : Nat) : String :=
  ⟨s.data.take n⟩

/-- Lookup in an insertion-ordered association list (Python `dict.get`). -/
def lookupStr {α : Type} (m : List (String × α)) (k : String) : Option α :=
  match m with
  | [] => none
  | (k', v) :: rest => if k' = k then some v else lookupStr rest k

/-- Python `dict` assignment `m[k] = v`: update in place when the key exists,
append at the end otherwise (insertion order preserved). -/
def setKey {α : Type} (m : List (String × α)) (k : String) (v : α) : List (String × α) :=
  match m with
  | [] => [(k, v)]
  | (k', v') :: rest =>
      if k' = k then (k', v) :: rest else (k', v') :: setKey rest k v

/-- Python `dict.pop(k, None)`: drop the entry with key `k` when present. -/
def popKey {α : Type} (m : List (String × α)) (k : String) : List (String × α) :=
  match m with
  | [] => []
  | (k', v') :: rest =>
      if k' = k then rest else (k', v') :: popKey rest k

/-- The `MetadataRecord` dataclass of `benfinder/metadata_tools/models.py`:
fifteen string fields, all defaulting to the empty string. -/
structure MetadataRecord where
  doi : String := ""
  title : String := ""
  publication : String := ""
  cover_date : String := ""
  url : String := ""
  abstract : String := ""
  authors : String := ""
  source : String := ""
  publisher : String := ""
  volume : String := ""
  issue : String := ""
  pages : String := ""
  language : String := ""
  keywords : String := ""
  issn : String := ""
deriving DecidableEq, Repr

/-- `MetadataRecord.dedup_key`: prefer the lowercased stripped DOI, else a
normalized title plus the first four characters of the cover date. -/
def MetadataRecord.dedup_key (r : MetadataRecord) : String :=
  if r.doi ≠ "" then
    "doi::" ++ strLower (strTrim r.doi)
  else
    "title::" ++ strLower (strTrim r.title) ++ "::year::" ++ strTake (strTrim r.cover_date) 4

/-- `merge_records` of `models.py`: DOI falls back, the longer abstract wins
(ties keep `primary`), every other field is `primary` when non-empty else
`other`. -/
def merge_records (primary other : MetadataRecord) : MetadataRecord :=
  { doi := pyOr primary.doi other.doi
    title := pyOr primary.title other.title
    publication := pyOr primary.publication other.publication
    cover_date := pyOr primary.cover_date other.cover_date
    url := pyOr primary.url other.url
    abstract := if other.abstract.length ≤ primary.abstract.length then primary.abstract
                else other.abstract
    authors := pyOr primary.authors other.authors
    source := pyOr primary.source other.source
    publisher := pyOr primary.publisher other.publisher
    volume := pyOr primary.volume other.volume
    issue := pyOr primary.issue other.issue
    pages := pyOr primary.pages other.pages
    language := pyOr primary.language other.language
    keywords := pyOr primary.keywords other.keywords
    issn := pyOr primary.issn other.issn }

/-- Restatement of the merge policy in the spec's own words (§4.1): identifier
from `primary` if non-empty else `other`; abstract from whichever side is
strictly longer, ties keeping `primary`; every remaining field from `primary`
if non-empty else `other`. -/
def mergeSpec (primary other : MetadataRecord) : MetadataRecord :=
  { doi := if primary.doi ≠ "" then primary.doi else other.doi
    title := if primary.title ≠ "" then primary.title else other.title
    publication := if primary.publication ≠ "" then primary.publication else other.publication
    cover_date := if primary.cover_date ≠ "" then primary.cover_date else other.cover_date
    url := if primary.url ≠ "" then primary.url else other.url
    abstract := if primary.abstract.length < other.abstract.length then other.abstract
                else primary.abstract
    authors := if primary.authors ≠ "" then primary.authors else other.authors
    source := if primary.source ≠ "" then primary.source else other.source
    publisher := if primary.publisher ≠ "" then primary.publisher else other.publisher
    volume := if primary.volume ≠ "" then primary.volume else other.volume
    issue := if primary.issue ≠ "" then primary.issue else other.issue
    pages := if primary.pages ≠ "" then primary.pages else other.pages
    language := if primary.language ≠ "" then primary.language else other.language
    keywords := if primary.keywords ≠ "" then primary.keywords else other.keywords
    issn := if primary.issn ≠ "" then primary.issn else other.issn }

/-- Bucket partition of `_balanced_trim`: group records into FIFO buckets keyed
by their lowercased source provider (`"unknown"` when empty), insertion order
of the keys preserved. -/
def trimBuckets (records : List MetadataRecord) : List (String × List MetadataRecord) :=
  records.foldl
    (fun bs r =>
      let provider := strLower (pyOr r.source "unknown")
      match lookupStr bs provider with
      | some q => setKey bs provider (q ++ [r])
      | none => bs ++ [(provider, [r])])
    []

/-- The `preferred_order` list of `_balanced_trim`: providers of the preference
list that own a bucket, in preference order, then remaining bucket keys in
first-seen order. -/
def preferredOrder (preference : List String) (bucketKeys : List String) : List String :=
  let step1 := preference.foldl
    (fun (acc : List String) provider =>
      let key := strLower provider
      if key ∈ bucketKeys ∧ key ∉ acc then acc ++ [key] else acc)
    []
  bucketKeys.foldl
    (fun (acc : List String) provider => if provider ∉ acc then acc ++ [provider] else acc)
    step1

/-- The `while` loop of `_balanced_trim`, with explicit fuel (the Python loop
terminates because every iteration either consumes a record or discards an
exhausted provider; the caller supplies fuel exceeding any possible iteration
count). -/
def trimLoop (fuel : Nat) (limit : Int) (porder : List String)
    (selection : List MetadataRecord) (active : List String)
    (buckets : List (String × List MetadataRecord)) : List MetadataRecord :=
  match fuel with
  | 0 => selection
  | Nat.succ fuel =>
    if (selection.length : Int) < limit ∧ buckets ≠ [] then
      let active0 :=
        if active = [] then
          porder.filter (fun prov => !((lookupStr buckets prov).getD []).isEmpty)
        else active
      match active0 with
      | [] => selection
      | provider :: rest =>
        match lookupStr buckets provider with
        | none => trimLoop fuel limit porder selection rest buckets
        | some [] => trimLoop fuel limit porder selection rest buckets
        | some (r :: q) =>
          if q ≠ [] then
            trimLoop fuel limit porder (selection ++ [r]) (rest ++ [provider])
              (setKey buckets provider q)
          else
            trimLoop fuel limit porder (selection ++ [r]) rest (popKey buckets provider)
    else selection

/-- `_balanced_trim` of `metadata_fetcher.py`: non-positive limits and lists
within the limit are returned unchanged; otherwise records are taken round-robin
from per-provider buckets ordered by the preference list. -/
def balanced_trim (preference : List String) (records : List MetadataRecord)
    (limit : Int) : List MetadataRecord :=
  if limit ≤ 0 ∨ (records.length : Int) ≤ limit then records
  else
    let buckets := trimBuckets records
    let porder := preferredOrder preference (buckets.map Prod.fst)
    trimLoop ((records.length + preference.length + 2) * (records.length + preference.length + 2))
      limit porder [] porder buckets

/-- Input of the quota-fairness scenario: 100 records from provider `A`,
5 from `B`, 5 from `C`, in that order. -/
def c4Input : List MetadataRecord :=
  List.replicate 100 { source := "A" } ++ List.replicate 5 { source := "B" }
    ++ List.replicate 5 { source := "C" }

/-- Position of a (lowercased) provider name in the preference list; names
absent from the list rank `length + 10`, as in `_prefer`'s `_idx`. -/
def prefIdx (preference : List String) (name : String) : Nat :=
  match preference.findIdx? (fun p => p == strLower name) with
  | some i => i
  | none => preference.length + 10

/-- The `_prefer` predicate of `metadata_fetcher.py`: `new_provider` outranks
`old_provider` when its preference index is strictly smaller. -/
def _prefer (preference : List String) (new_provider old_provider : String) : Bool :=
  prefIdx preference new_provider < prefIdx preference old_provider

/-- The per-record body of `_merge_across_providers`'s loop: insert one record
from `provider_name` into the `(buckets, sources)` pair. -/
def mergeInsert (preference : List String) (provider_name : String)
    (st : List (String × MetadataRecord) × List (String × String))
    (record : MetadataRecord) :
    List (String × MetadataRecord) × List (String × String) :=
  let key := record.dedup_key
  match lookupStr st.1 key with
  | none => (setKey st.1 key record, setKey st.2 key provider_name)
  | some existing =>
      let existing_source := (lookupStr st.2 key).getD ""
      if _prefer preference provider_name existing_source then
        (setKey st.1 key (merge_records record existing), setKey st.2 key provider_name)
      else
        (setKey st.1 key (merge_records existing record), st.2)

/-- `_merge_across_providers`: fold one provider's batch into the dedup bucket
(`buckets`) and the provenance map (`sources`), keyed by `dedup_key`. -/
def _merge_across_providers (preference : List String)
    (buckets : List (String × MetadataRecord)) (sources : List (String × String))
    (new_records : List MetadataRecord) (provider_name : String) :
    List (String × MetadataRecord) × List (String × String) :=
  new_records.foldl (mergeInsert preference provider_name) (buckets, sources)

/-- The insertion contract restricted to a single dedup key: how one record
from `provider_name` transforms the (current record, current winning
provider) pair of its own key. -/
def perKeyInsert (preference : List String) (provider_name : String)
    (st : Option MetadataRecord × Option String) (record : MetadataRecord) :
    Option MetadataRecord × Option String :=
  match st.1 with
  | none => (some record, some provider_name)
  | some existing =>
      let existing_source := st.2.getD ""
      if _prefer preference provider_name existing_source then
        (some (merge_records record existing), some provider_name)
      else
        (some (merge_records existing record), st.2)

/-- The configuration surface read by `fetch_metadata`: enabled providers,
preference order, the per-provider caps and query overrides (keys lowercased
by the module loader), the default query, and the keys of `PROVIDER_CLIENTS`. -/
structure FetchConfig where
  providers : List String
  preference : List String
  providerMaxResults : List (String × Int)
  providerQueries : List (String × String)
  defaultQuery : String
  knownProviders : List String

/-- A provider adapter call: given the provider key, effective query and cap,
either a record batch or a raised exception (modelled as `Except.error`). -/
def ProviderOracle : Type :=
  String → String → Int → Except String (List MetadataRecord)

/-- `_provider_limit`: the explicitly configured cap when present and positive,
else `max 1 fallback`. -/
def _provider_limit (cfg : FetchConfig) (provider : String) (fallback : Int) : Int :=
  match lookupStr cfg.providerMaxResults (strTrim (strLower provider)) with
  | none => max 1 fallback
  | some value => if value ≤ 0 then max 1 fallback else value

/-- `_call_provider`: unknown providers and raising adapters both yield zero
records; otherwise the adapter's batch is returned. -/
def _call_provider (cfg : FetchConfig) (oracle : ProviderOracle)
    (provider query : String) (max_results : Int) : List MetadataRecord :=
  let provider_key := strTrim (strLower provider)
  if provider_key ∈ cfg.knownProviders then
    match oracle provider_key query max_results with
    | Except.ok records => records
    | Except.error _ => []
  else []

/-- `_resolve_provider_query`: an explicitly customized caller query wins,
else the provider-specific override, else the default query. -/
def _resolve_provider_query (cfg : FetchConfig) (provider : String)
    (user_query : String) : String :=
  let base_query := strTrim user_query
  if base_query ≠ "" ∧ base_query ≠ cfg.defaultQuery then base_query
  else
    match lookupStr cfg.providerQueries (strLower provider) with
    | some override => if override ≠ "" then override else pyOr base_query cfg.defaultQuery
    | none => pyOr base_query cfg.defaultQuery

/-- `requested_cap = max(1, int(max_results))`. -/
def requestedCapOf (max_results : Int) : Int := max 1 max_results

/-- The `provider_caps` dict of `fetch_metadata`: one entry per enabled
provider (duplicates collapse as in a Python dict comprehension). -/
def providerCaps (cfg : FetchConfig) (requested_cap : Int) : List (String × Int) :=
  cfg.providers.foldl
    (fun m prov => setKey m prov (_provider_limit cfg prov requested_cap)) []

/-- `combined_cap`: the sum of all per-provider effective limits, present only
when the per-provider cap map is non-empty. -/
def combinedCap (cfg : FetchConfig) (requested_cap : Int) : Option Int :=
  if cfg.providerMaxResults = [] then none
  else some ((providerCaps cfg requested_cap).map Prod.snd).sum

/-- The `effective_cap` computed at the top of `fetch_metadata`. -/
def effectiveCap (cfg : FetchConfig) (max_results : Int) : Int :=
  let requested_cap := requestedCapOf max_results
  match combinedCap cfg requested_cap with
  | some combined => if combined > requested_cap then combined else requested_cap
  | none => requested_cap

/-- The record batch a provider contributes to the dedup bucket: the adapter's
records with `source` defaulted to the lowercased provider key. -/
def insertedRecords (cfg : FetchConfig) (oracle : ProviderOracle)
    (query : String) (max_results : Int) (prov : String) : List MetadataRecord :=
  let requested_cap := requestedCapOf max_results
  let caps := providerCaps cfg requested_cap
  let effective_query := _resolve_provider_query cfg prov query
  let provider_limit := (lookupStr caps prov).getD requested_cap
  let records := _call_provider cfg oracle prov effective_query provider_limit
  records.map (fun r => { r with source := pyOr r.source (strTrim (strLower prov)) })

/-- One iteration of the provider loop of `fetch_metadata`: skip providers
that returned nothing, else merge their tagged batch into the bucket. -/
def fetchStep (cfg : FetchConfig) (oracle : ProviderOracle)
    (query : String) (max_results : Int)
    (st : List (String × MetadataRecord) × List (String × String)) (prov : String) :
    List (String × MetadataRecord) × List (String × String) :=
  if insertedRecords cfg oracle query max_results prov = [] then st
  else _merge_across_providers cfg.preference st.1 st.2
    (insertedRecords cfg oracle query max_results prov) (strTrim (strLower prov))

/-- The dedup bucket and provenance map after the whole provider loop. -/
def fetchBuckets (cfg : FetchConfig) (oracle : ProviderOracle)
    (query : String) (max_results : Int) :
    List (String × MetadataRecord) × List (String × String) :=
  cfg.providers.foldl (fetchStep cfg oracle query max_results) ([], [])

/-- The flattened aggregation result before the quota trim. -/
def mergedResults (cfg : FetchConfig) (oracle : ProviderOracle)
    (query : String) (max_results : Int) : List MetadataRecord :=
  (fetchBuckets cfg oracle query max_results).1.map Prod.snd

/-- `fetch_metadata`: run all providers, flatten the bucket, and trim when the
result exceeds the effective cap. -/
def fetch_metadata (cfg : FetchConfig) (oracle : ProviderOracle)
    (query : String) (max_results : Int) : List MetadataRecord :=
  if ((mergedResults cfg oracle query max_results).length : Int)
      > effectiveCap cfg max_results then
    balanced_trim cfg.preference (mergedResults cfg oracle query max_results)
      (effectiveCap cfg max_results)
  else mergedResults cfg oracle query max_results

/-- Claim C1's reading of the cap rule (spec §4.3): the sum, over the enabled
providers, of the explicitly configured per-provider caps (0 for a provider
with no explicit cap). -/
def sumExplicitCaps (cfg : FetchConfig) : Int :=
  (cfg.providers.map
    (fun prov => (lookupStr cfg.providerMaxResults (strTrim (strLower prov))).getD 0)).sum

/-- First-occurrence deduplication of a list of names (the set of enabled
providers, counted once each, as a Python dict comprehension would). -/
def dedupNames (l : List String) : List String :=
  l.foldl (fun acc x => if x ∈ acc then acc else acc ++ [x]) []

/-- The per-provider limit in the amended cap rule's words: the explicit cap
when one is configured and positive, otherwise the requested cap itself. -/
def providerLimitSpec (cfg : FetchConfig) (requested_cap : Int) (prov : String) : Int :=
  match lookupStr cfg.providerMaxResults (strTrim (strLower prov)) with
  | some v => if 0 < v then v else requested_cap
  | none => requested_cap

/-- The amended cap rule: with no explicit caps configured at all the
effective cap is the requested cap; otherwise each enabled provider (counted
once) contributes its explicit cap when configured, else the requested cap,
and the effective cap is the larger of the requested cap and that sum. -/
def effectiveCapSpec (cfg : FetchConfig) (max_results : Int) : Int :=
  let req := max 1 max_results
  if cfg.providerMaxResults = [] then req
  else max req ((dedupNames cfg.providers).map (providerLimitSpec cfg req)).sum

/-- The hypothesis of the dedup claims: a record carrying the (non-empty)
case- and whitespace-insensitive identifier `normId`. -/
def hasNormDoi (normId : String) (r : MetadataRecord) : Prop :=
  r.doi ≠ "" ∧ strLower (strTrim r.doi) = normId

instance (normId : String) (r : MetadataRecord) : Decidable (hasNormDoi normId r) := by
  unfold hasNormDoi
  exact instDecidableAnd

/-- The `DOI_PREFIX_MAP` of `literature_fetcher.py`. -/
def DOI_PREFIX_MAP : List (String × String) :=
  [("10.1016", "elsevier"), ("10.1007", "springer"), ("10.1021", "acs"),
   ("10.1039", "rsc"), ("10.1002", "wiley")]

/-- `guess_provider`: map the DOI prefix (before the first slash) through
`DOI_PREFIX_MAP`, defaulting otherwise. -/
def guess_provider (doi : String) (default : String) : String :=
  let pre : String := ⟨doi.data.takeWhile (fun c => c != '/')⟩
  (lookupStr DOI_PREFIX_MAP pre).getD default

/-- `_normalize_dois` on a list input: strip each item and drop empties. -/
def _normalize_dois (items : List String) : List String :=
  items.filterMap (fun s => let t := strTrim s; if t = "" then none else some t)

/-- The deduplication pass over `raw_records`: strip each DOI, skip empty and
already-seen ones, and lowercase the provider guess (empty becomes `none`). -/
def dedupRecords (raw : List (String × String)) : List (String × Option String) :=
  (raw.foldl
    (fun (st : List String × List (String × Option String)) p =>
      let doi_clean := strTrim p.1
      if doi_clean = "" ∨ doi_clean ∈ st.1 then st
      else
        (st.1 ++ [doi_clean],
         st.2 ++ [(doi_clean, if strLower p.2 = "" then none else some (strLower p.2))]))
    ([], [])).2

/-- Lexicographic comparison of character lists by code point (the order
Python's `sorted` uses on strings). -/
def charListLe : List Char → List Char → Bool
  | [], _ => true
  | _ :: _, [] => false
  | c :: cs, d :: ds => if c < d then true else if d < c then false else charListLe cs ds

/-- Python string comparison `a <= b`, by code points. -/
def strLe (a b : String) : Bool := charListLe a.data b.data

/-- Insertion of one string into a lexicographically sorted list. -/
def insertSorted (x : String) : List String → List String
  | [] => [x]
  | y :: ys => if strLe x y then x :: y :: ys else y :: insertSorted x ys

/-- Python `sorted` on a list of strings, by insertion sort. -/
def sortStrings (l : List String) : List String :=
  l.foldr insertSorted []

/-- The `fallback_order` of `download_fulltexts`: configured names that are
registered and not Sci-Hub, deduplicated in order, then all remaining
registered names (sorted) except Sci-Hub. -/
def buildFallbackOrder (configured registered : List String) : List String :=
  let fb1 := (configured.map strLower).foldl
    (fun (acc : List String) name =>
      if name ∈ registered ∧ name ≠ "scihub" ∧ name ∉ acc then acc ++ [name] else acc)
    []
  (sortStrings registered).foldl
    (fun (acc : List String) name =>
      if name = "scihub" ∨ name ∈ acc then acc else acc ++ [name])
    fb1

/-- `scihub_provider`: the last-resort backend, present only when registered. -/
def scihubProvider (registered : List String) : Option String :=
  if "scihub" ∈ registered then some "scihub" else none

/-- `_candidate_sequence`: the initial guess first when it is a fallback
backend, then the fallback order without repetition. -/
def candidateSequence (fallbackOrder : List String) (initial : Option String) :
    List String :=
  let seq0 := match initial with
    | some g => if g ∈ fallbackOrder then [g] else []
    | none => []
  fallbackOrder.foldl (fun acc name => if name ∈ acc then acc else acc ++ [name]) seq0

/-- Scheduler state: the per-identifier remaining candidate queues
(`attempt_plan`) and the success map (`successes`). -/
structure SchedState where
  plan : List (String × List String)
  succ : List (String × String)
deriving DecidableEq, Repr

/-- The batch collected for backend `B`: identifiers (in input order) that are
still planned, not yet resolved, and whose queue head is `B`. -/
def phaseBatch (doiOrder : List String) (st : SchedState) (B : String) : List String :=
  doiOrder.filter (fun d =>
    match lookupStr st.plan d, lookupStr st.succ d with
    | some (h :: _), none => h == B
    | _, _ => false)

/-- Processing one adapter result in a phase: pop the queue head, and on
success record the path and clear the queue. -/
def applyResult (fetch : String → String → Option String) (B : String)
    (st : SchedState) (d : String) : SchedState :=
  let q := (lookupStr st.plan d).getD []
  let st1 : SchedState := { st with plan := setKey st.plan d q.tail }
  match fetch B d with
  | some path => { plan := setKey st1.plan d [], succ := setKey st1.succ d path }
  | none => st1

/-- One backend phase: dispatch the whole batch to the adapter and fold the
results into the state; also report the batch as the phase's attempt event. -/
def runPhase (fetch : String → String → Option String) (doiOrder : List String)
    (st : SchedState) (B : String) : SchedState × (String × List String) :=
  let batch := phaseBatch doiOrder st B
  (batch.foldl (applyResult fetch B) st, (B, batch))

/-- The outer loop over the fixed fallback list, single pass, collecting the
trace of `(backend, batch)` events. -/
def runPhases (fetch : String → String → Option String) (doiOrder : List String) :
    List String → SchedState → SchedState × List (String × List String)
  | [], st => (st, [])
  | B :: rest, st =>
      let stEv := runPhase fetch doiOrder st B
      let out := runPhases fetch doiOrder rest stEv.1
      (out.1, stEv.2 :: out.2)

/-- The Sci-Hub last-resort phase over all still-pending identifiers (queues
are not popped here). -/
def scihubPhase (fetch : String → String → Option String) (name : String)
    (pending : List String) (succ : List (String × String)) : List (String × String) :=
  pending.foldl
    (fun s d => match fetch name d with | some p => setKey s d p | none => s) succ

/-- The deduplicated `(doi, initial provider)` pairs of the DOI download mode:
each normalized DOI with the CLI provider or the prefix-based guess. -/
def dedupedOf (providerArg : Option String) (dois : List String) :
    List (String × Option String) :=
  let provider := providerArg.map strLower
  dedupRecords ((_normalize_dois dois).map
    (fun item => (item, provider.getD (guess_provider item "elsevier"))))

/-- `doi_order`: the deduplicated identifiers in first-seen order. -/
def doiOrderOf (providerArg : Option String) (dois : List String) : List String :=
  (dedupedOf providerArg dois).map Prod.fst

/-- The initial `attempt_plan`: each identifier's candidate queue (identifiers
with an empty candidate list are skipped). -/
def initPlanOf (configured registered : List String) (providerArg : Option String)
    (dois : List String) : List (String × List String) :=
  (dedupedOf providerArg dois).foldl
    (fun m p =>
      let candidates := candidateSequence (buildFallbackOrder configured registered) p.2
      if candidates = [] then m else m ++ [(p.1, candidates)])
    []

/-- The outcome of one acquisition run: the success map, the failed
identifiers, the trace of attempt events, and the deduplicated input order
(early returns produce the empty outcome, as the code produces no partition
there). -/
structure DownloadResult where
  resolved : List (String × String)
  failed : List String
  trace : List (String × List String)
  doiOrder : List String
deriving DecidableEq, Repr

/-- `download_fulltexts` in DOI mode: build the fallback order and candidate
queues, run one phase per fallback backend, then the Sci-Hub last-resort
phase over everything still pending. -/
def download_fulltexts (configured registered : List String)
    (providerArg : Option String) (dois : List String)
    (fetch : String → String → Option String) : DownloadResult :=
  let fallbackOrder := buildFallbackOrder configured registered
  if fallbackOrder = [] then ⟨[], [], [], []⟩
  else
    let deduped := dedupedOf providerArg dois
    if deduped = [] then ⟨[], [], [], []⟩
    else
      let doiOrder := doiOrderOf providerArg dois
      let plan := initPlanOf configured registered providerArg dois
      if plan = [] then ⟨[], [], [], []⟩
      else
        let out := runPhases fetch doiOrder fallbackOrder ⟨plan, []⟩
        let pending := doiOrder.filter (fun d => (lookupStr out.1.succ d).isNone)
        match scihubProvider registered with
        | some sci =>
            if pending ≠ [] then
              let succ2 := scihubPhase fetch sci pending out.1.succ
              ⟨succ2, doiOrder.filter (fun d => (lookupStr succ2 d).isNone),
               out.2 ++ [(sci, pending)], doiOrder⟩
            else
              ⟨out.1.succ, doiOrder.filter (fun d => (lookupStr out.1.succ d).isNone),
               out.2, doiOrder⟩
        | none =>
            ⟨out.1.succ, doiOrder.filter (fun d => (lookupStr out.1.succ d).isNone),
             out.2, doiOrder⟩

/-- The backends that attempted identifier `d`, in phase order, read off a
run's trace. -/
def attemptsOf (trace : List (String × List String)) (d : String) : List String :=
  trace.filterMap (fun ev => if d ∈ ev.2 then some ev.1 else none)

/-- The configuration of the C1 counterexample: providers alpha and beta, an
explicit cap only for alpha. -/
def c1Cfg : FetchConfig :=
  { providers := ["alpha", "beta"]
    preference := ["alpha", "beta"]
    providerMaxResults := [("alpha", 5)]
    providerQueries := []
    defaultQuery := "q"
    knownProviders := ["alpha", "beta"] }

/-- The configuration of the C8 counterexample: one provider, requested cap 1
(so the quota trim runs). -/
def c8Cfg : FetchConfig :=
  { providers := ["alpha"]
    preference := ["alpha"]
    providerMaxResults := []
    providerQueries := []
    defaultQuery := "q"
    knownProviders := ["alpha"] }

/-- The C8 oracle: one batch holding a `Y` record and two records whose DOIs
are `X` and `" x "` — identical non-empty identifiers up to case and
whitespace. -/
def c8Oracle : ProviderOracle := fun _ _ _ =>
  Except.ok [{ doi := "Y" }, { doi := "X" }, { doi := " x " }]

/-- C3 counterexample record from provider a: shares DOI `X`, empty title. -/
def c3ra : MetadataRecord := { doi := "X" }

/-- C3 counterexample record from provider b: same DOI, title `B-title`. -/
def c3rb : MetadataRecord := { doi := "X", title := "B-title" }

/-- C3 counterexample record from provider c: same DOI, title `C-title`. -/
def c3rc : MetadataRecord := { doi := "X", title := "C-title" }

/-- The C2 witness oracle: alpha always fails, every other backend succeeds. -/
def c2Fetch : String → String → Option String :=
  fun b _ => if b = "alpha" then none else some "p"

theorem pyOr_assoc (a b c : String) : pyOr (pyOr a b) c = pyOr a (pyOr b c) := by
  unfold pyOr
  by_cases ha : a = "" <;> by_cases hb : b = "" <;> simp [ha, hb]

theorem pyOr_eq_ite (a b : String) : pyOr a b = if a ≠ "" then a else b := by
  unfold pyOr
  by_cases h : a = "" <;> simp [h]

theorem pickLonger_eq_spec (p o : String) :
    (if o.length ≤ p.length then p else o) = (if p.length < o.length then o else p) := by
  split_ifs <;> first | rfl | omega

theorem pickLonger_assoc (a b c : String) :
    (if c.length ≤ (if b.length ≤ a.length then a else b).length
        then (if b.length ≤ a.length then a else b) else c)
    = (if (if c.length ≤ b.length then b else c).length ≤ a.length
        then a else (if c.length ≤ b.length then b else c)) := by
  split_ifs <;> first | rfl | omega

/-- C5: `merge_records` implements exactly the spec's per-field policy —
identifier is primary's if non-empty else other's, the abstract is the
strictly longer of the two with ties keeping primary's, and every remaining
string field is primary's value if non-empty else other's. -/
theorem merge_records_eq_mergeSpec (primary other : MetadataRecord) :
    merge_records primary other = mergeSpec primary other := by
  unfold merge_records mergeSpec
  simp only [pyOr_eq_ite, pickLonger_eq_spec]

/-- C6: `merge_records` is deterministic (it is a pure function) and
associative: merging three records in either grouping yields the same field
values. -/
theorem merge_records_assoc (a b c : MetadataRecord) :
    merge_records (merge_records a b) c = merge_records a (merge_records b c) := by
  unfold merge_records
  simp only [MetadataRecord.mk.injEq]
  refine ⟨?_, ?_, ?_, ?_, ?_, ?_, ?_, ?_, ?_, ?_, ?_, ?_, ?_, ?_, ?_⟩
  all_goals first | exact pyOr_assoc .. | exact pickLonger_assoc ..

set_option maxRecDepth 100000 in
/-- C4: trimming 100 `A`-records, 5 `B`-records and 5 `C`-records to limit 15
under preference `[A, B, C]` keeps exactly 5 records of each provider; the
low-volume providers `B` and `C` are not starved. -/
theorem balanced_trim_quota_fairness :
    (balanced_trim ["A", "B", "C"] c4Input 15).countP (fun r => r.source == "A") = 5
    ∧ (balanced_trim ["A", "B", "C"] c4Input 15).countP (fun r => r.source == "B") = 5
    ∧ (balanced_trim ["A", "B", "C"] c4Input 15).countP (fun r => r.source == "C") = 5
    ∧ (balanced_trim ["A", "B", "C"] c4Input 15).length = 15 := by
  refine ⟨?_, ?_, ?_, ?_⟩ <;> rfl

/-- C10: a non-positive limit disables trimming — `balanced_trim` returns the
input list unchanged for every record list whenever `limit ≤ 0`, even when the
list is longer than the limit. -/
theorem balanced_trim_nonpositive_limit (preference : List String)
    (records : List MetadataRecord) (limit : Int) (h : limit ≤ 0) :
    balanced_trim preference records limit = records := by
  unfold balanced_trim
  rw [if_pos (Or.inl h)]

theorem balanced_trim_nonpositive_limit_witness :
    (0 : Int) ≤ 0
    ∧ balanced_trim [] [{ doi := "10.1/a" }, { doi := "10.1/b" }] 0
        = [{ doi := "10.1/a" }, { doi := "10.1/b" }] :=
  ⟨by decide, balanced_trim_nonpositive_limit [] _ 0 (by decide)⟩

theorem lookupStr_setKey_self {α : Type} (m : List (String × α)) (k : String) (v : α) :
    lookupStr (setKey m k v) k = some v := by
  induction m with
  | nil => simp [setKey, lookupStr]
  | cons p rest ih =>
      by_cases h : p.1 = k
      · simp [setKey, h, lookupStr]
      · simp [setKey, h, lookupStr, ih]

theorem lookupStr_setKey_ne {α : Type} (m : List (String × α)) (k : String) (v : α)
    (k' : String) (h : k' ≠ k) :
    lookupStr (setKey m k v) k' = lookupStr m k' := by
  have h' : ¬(k = k') := fun he => h he.symm
  induction m with
  | nil => simp [setKey, lookupStr, h']
  | cons p rest ih =>
      by_cases hp : p.1 = k
      · simp [setKey, hp, lookupStr, h']
      · simp only [setKey, if_neg hp, lookupStr, ih]

theorem setKey_of_lookup_none {α : Type} (m : List (String × α)) (k : String) (v : α)
    (h : lookupStr m k = none) : setKey m k v = m ++ [(k, v)] := by
  induction m with
  | nil => simp [setKey]
  | cons p rest ih =>
      by_cases hp : p.1 = k
      · simp [lookupStr, hp] at h
      · simp only [lookupStr, if_neg hp] at h
        simp [setKey, hp, ih h]

theorem setKey_of_lookup_self {α : Type} (m : List (String × α)) (k : String) (v : α)
    (h : lookupStr m k = some v) : setKey m k v = m := by
  induction m with
  | nil => simp [lookupStr] at h
  | cons p rest ih =>
      by_cases hp : p.1 = k
      · simp only [lookupStr, if_pos hp] at h
        cases p with
        | mk k1 v1 =>
            simp only at hp h
            injection h with h2
            subst h2
            simp [setKey, hp]
      · simp only [lookupStr, if_neg hp] at h
        simp [setKey, hp, ih h]

theorem lookupStr_map_pair {α : Type} (f : String → α) (dl : List String) (x : String) :
    lookupStr (dl.map (fun k => (k, f k))) x = if x ∈ dl then some (f x) else none := by
  induction dl with
  | nil => simp [lookupStr]
  | cons y ys ih =>
      by_cases h : y = x
      · simp [lookupStr, h]
      · have h2 : ¬(x = y) := fun he => h he.symm
        simp [lookupStr, h, h2, ih]

theorem foldl_setKey_eq_dedup {α : Type} (f : String → α) (l : List String) :
    ∀ dl : List String,
      l.foldl (fun m prov => setKey m prov (f prov)) (dl.map (fun k => (k, f k)))
        = (l.foldl (fun acc x => if x ∈ acc then acc else acc ++ [x]) dl).map
            (fun k => (k, f k)) := by
  induction l with
  | nil => intro dl; rfl
  | cons x xs ih =>
      intro dl
      by_cases hx : x ∈ dl
      · have hl : lookupStr (dl.map (fun k => (k, f k))) x = some (f x) := by
          rw [lookupStr_map_pair]; simp [hx]
        simp only [List.foldl_cons, setKey_of_lookup_self _ _ _ hl, if_pos hx]
        exact ih dl
      · have hl : lookupStr (dl.map (fun k => (k, f k))) x = none := by
          rw [lookupStr_map_pair]; simp [hx]
        simp only [List.foldl_cons, setKey_of_lookup_none _ _ _ hl, if_neg hx]
        have : dl.map (fun k => (k, f k)) ++ [(x, f x)]
            = (dl ++ [x]).map (fun k => (k, f k)) := by simp
        rw [this]
        exact ih (dl ++ [x])

theorem providerCaps_eq_dedup (cfg : FetchConfig) (req : Int) :
    providerCaps cfg req
      = (dedupNames cfg.providers).map (fun prov => (prov, _provider_limit cfg prov req)) := by
  unfold providerCaps dedupNames
  have := foldl_setKey_eq_dedup (fun prov => _provider_limit cfg prov req) cfg.providers []
  simpa using this

theorem _provider_limit_eq_spec (cfg : FetchConfig) (req : Int) (prov : String)
    (h : 1 ≤ req) : _provider_limit cfg prov req = providerLimitSpec cfg req prov := by
  unfold _provider_limit providerLimitSpec
  have hm : max 1 req = req := by omega
  cases lookupStr cfg.providerMaxResults (strTrim (strLower prov)) with
  | none => simpa using hm
  | some v =>
      by_cases hv : v ≤ 0
      · simp [hv, hm]
        omega
      · simp [hv]
        omega

/-- C1 (amended): the effective cap equals the requested cap whenever no
explicit per-provider cap is configured at all; otherwise it is the larger of
the requested cap and the sum, over the enabled providers counted once, of
each provider's effective limit — its explicit cap when configured and
positive, else the requested cap itself. -/
theorem effectiveCap_eq_spec (cfg : FetchConfig) (max_results : Int) :
    effectiveCap cfg max_results = effectiveCapSpec cfg max_results := by
  unfold effectiveCap effectiveCapSpec combinedCap requestedCapOf
  by_cases hempty : cfg.providerMaxResults = []
  · simp [hempty]
  · have h1 : (1 : Int) ≤ max 1 max_results := le_max_left 1 max_results
    have hsum : ((providerCaps cfg (max 1 max_results)).map Prod.snd).sum
        = ((dedupNames cfg.providers).map (providerLimitSpec cfg (max 1 max_results))).sum := by
      rw [providerCaps_eq_dedup, List.map_map]
      congr 1
      apply List.map_congr_left
      intro p _
      exact _provider_limit_eq_spec cfg (max 1 max_results) p h1
    simp only [if_neg hempty, hsum]
    rcases le_or_lt ((dedupNames cfg.providers).map (providerLimitSpec cfg (max 1 max_results))).sum (max 1 max_results) with hle | hlt
    · rw [if_neg (by omega), max_eq_left hle]
    · rw [if_pos (by omega), max_eq_right (le_of_lt hlt)]

/-- C1 counterexample: with enabled providers alpha and beta, an explicit cap
of 5 configured for alpha only, and requested cap 10, the explicit
per-provider caps sum to 5 ≤ 10, yet `fetch_metadata`'s effective cap is 15
(alpha's explicit 5 plus beta's fallback 10), not the requested 10 — because
`combined_cap` sums the fallback limits of unconfigured providers too. -/
theorem effectiveCap_exceeds_requested_counterexample :
    sumExplicitCaps c1Cfg ≤ requestedCapOf 10
    ∧ effectiveCap c1Cfg 10 = 15
    ∧ effectiveCap c1Cfg 10 ≠ requestedCapOf 10 := by
  refine ⟨by decide, by decide, by decide⟩

theorem call_provider_error_eq_empty (cfg : FetchConfig) (oracle oracle2 : ProviderOracle)
    (p : String)
    (herr : ∀ q l recs, oracle (strTrim (strLower p)) q l ≠ Except.ok recs)
    (hzero : ∀ q l, oracle2 (strTrim (strLower p)) q l = Except.ok [])
    (hsame : ∀ pk q l, pk ≠ strTrim (strLower p) → oracle2 pk q l = oracle pk q l)
    (prov query : String) (maxr : Int) :
    _call_provider cfg oracle prov query maxr = _call_provider cfg oracle2 prov query maxr := by
  unfold _call_provider
  by_cases hk : strTrim (strLower prov) = strTrim (strLower p)
  · rw [hk]
    cases hcall : oracle (strTrim (strLower p)) query maxr with
    | ok recs => exact absurd hcall (herr query maxr recs)
    | error e => simp [hzero query maxr, hcall]
  · simp [hsame _ query maxr hk]

/-- C9: a provider whose adapter raises is treated exactly as one returning
zero records — the whole aggregation run returns the same result as with an
adapter that returns an empty batch, so the remaining providers are still
queried the same way, the run completes, and the exception never propagates. -/
theorem fetch_metadata_provider_error_isolated
    (cfg : FetchConfig) (oracle oracle2 : ProviderOracle) (p query : String)
    (max_results : Int)
    (herr : ∀ q l recs, oracle (strTrim (strLower p)) q l ≠ Except.ok recs)
    (hzero : ∀ q l, oracle2 (strTrim (strLower p)) q l = Except.ok [])
    (hsame : ∀ pk q l, pk ≠ strTrim (strLower p) → oracle2 pk q l = oracle pk q l) :
    fetch_metadata cfg oracle query max_results
      = fetch_metadata cfg oracle2 query max_results := by
  have hstep : ∀ st prov, fetchStep cfg oracle query max_results st prov
      = fetchStep cfg oracle2 query max_results st prov := by
    intro st prov
    unfold fetchStep insertedRecords
    simp only [call_provider_error_eq_empty cfg oracle oracle2 p herr hzero hsame]
  have hb : fetchBuckets cfg oracle query max_results
      = fetchBuckets cfg oracle2 query max_results := by
    unfold fetchBuckets
    exact List.foldl_ext _ _ _ (fun st prov _ => hstep st prov)
  unfold fetch_metadata mergedResults
  rw [hb]

/-- The C9 witness configuration. -/
def c9Cfg : FetchConfig :=
  { providers := ["alpha", "beta"]
    preference := ["alpha", "beta"]
    providerMaxResults := []
    providerQueries := []
    defaultQuery := "q"
    knownProviders := ["alpha", "beta"] }

/-- A provider oracle that always raises. -/
def c9OracleErr : ProviderOracle := fun _ _ _ => Except.error "boom"

/-- The same oracle with alpha's failure replaced by an empty batch. -/
def c9OracleOk : ProviderOracle := fun pk _ _ =>
  if pk = "alpha" then Except.ok [] else Except.error "boom"

theorem fetch_metadata_provider_error_isolated_witness :
    fetch_metadata c9Cfg c9OracleErr "q" 5 = fetch_metadata c9Cfg c9OracleOk "q" 5 :=
  fetch_metadata_provider_error_isolated c9Cfg c9OracleErr c9OracleOk "alpha" "q" 5
    (fun _ _ _ h => Except.noConfusion h)
    (fun _ _ => rfl)
    (fun pk q l h => by
      have h2 : pk ≠ "alpha" := h
      simp [c9OracleOk, c9OracleErr, h2])

theorem _prefer_asymm (pref : List String) (p1 p2 : String)
    (h : _prefer pref p1 p2 = true) : _prefer pref p2 p1 = false := by
  unfold _prefer at *
  simp only [decide_eq_true_eq] at h
  simp only [decide_eq_false_iff_not]
  omega

theorem mergeAcross_lookup (pref : List String) (p : String) (rs : List MetadataRecord) :
    ∀ (buckets : List (String × MetadataRecord)) (sources : List (String × String))
      (k : String),
      (lookupStr (_merge_across_providers pref buckets sources rs p).1 k,
       lookupStr (_merge_across_providers pref buckets sources rs p).2 k)
      = (rs.filter (fun r => r.dedup_key == k)).foldl
          (perKeyInsert pref p) (lookupStr buckets k, lookupStr sources k) := by
  induction rs with
  | nil => intro b s k; rfl
  | cons r rest ih =>
      intro b s k
      have hcons : _merge_across_providers pref b s (r :: rest) p
          = _merge_across_providers pref (mergeInsert pref p (b, s) r).1
              (mergeInsert pref p (b, s) r).2 rest p := by
        unfold _merge_across_providers
        simp [List.foldl_cons]
      rw [hcons, ih]
      by_cases hk : r.dedup_key = k
      · have hfil : (r :: rest).filter (fun r => r.dedup_key == k)
            = r :: rest.filter (fun r => r.dedup_key == k) := by
          simp [List.filter_cons, hk]
        rw [hfil, List.foldl_cons]
        congr 1
        unfold mergeInsert perKeyInsert
        rw [hk]
        cases hb : lookupStr b k with
        | none =>
            simp [hb, lookupStr_setKey_self]
        | some existing =>
            simp only [hb]
            by_cases hpref : _prefer pref p ((lookupStr s k).getD "") = true
            · simp [hpref, lookupStr_setKey_self]
            · simp only [Bool.not_eq_true] at hpref
              simp [hpref, lookupStr_setKey_self]
      · have hfil : (r :: rest).filter (fun r => r.dedup_key == k)
            = rest.filter (fun r => r.dedup_key == k) := by
          simp [List.filter_cons, hk]
        rw [hfil]
        congr 1
        have hne : k ≠ r.dedup_key := fun he => hk he.symm
        unfold mergeInsert
        cases hb : lookupStr b r.dedup_key with
        | none =>
            simp [hb, lookupStr_setKey_ne _ _ _ _ hne]
        | some existing =>
            by_cases hpref : _prefer pref p ((lookupStr s r.dedup_key).getD "") = true
            · simp [hb, hpref, lookupStr_setKey_ne _ _ _ _ hne]
            · simp only [Bool.not_eq_true] at hpref
              simp [hb, hpref, lookupStr_setKey_ne _ _ _ _ hne]

theorem filter_key_of_nodup (l : List MetadataRecord) (k : String)
    (h : (l.map MetadataRecord.dedup_key).Nodup) :
    l.filter (fun r => r.dedup_key == k) = []
    ∨ ∃ r, l.filter (fun r => r.dedup_key == k) = [r] ∧ r.dedup_key = k := by
  induction l with
  | nil => exact Or.inl rfl
  | cons x xs ih =>
      simp only [List.map_cons, List.nodup_cons] at h
      by_cases hx : x.dedup_key = k
      · right
        refine ⟨x, ?_, hx⟩
        have htail : xs.filter (fun r => r.dedup_key == k) = [] := by
          rw [List.filter_eq_nil_iff]
          intro r hr hbeq
          have hkr : r.dedup_key = k := by simpa using hbeq
          exact h.1 (by
            rw [hx, ← hkr]
            exact List.mem_map_of_mem MetadataRecord.dedup_key hr)
        simp [List.filter_cons, hx, htail]
      · have : (x :: xs).filter (fun r => r.dedup_key == k)
            = xs.filter (fun r => r.dedup_key == k) := by
          simp [List.filter_cons, hx]
        rw [this]
        exact ih h.2

/-- C3 counterexample: with preference `[a, b, c]` and one same-key record per
provider (title empty from a, `B-title` from b, `C-title` from c), inserting
the batches in order a, b, c and in order a, c, b yields different final
merged records for the shared dedup key — the claimed order-independence
fails for three providers. -/
theorem merge_across_order_dependent_counterexample :
    (lookupStr (_merge_across_providers ["a", "b", "c"]
        (_merge_across_providers ["a", "b", "c"]
          (_merge_across_providers ["a", "b", "c"] [] [] [c3ra] "a").1
          (_merge_across_providers ["a", "b", "c"] [] [] [c3ra] "a").2 [c3rb] "b").1
        (_merge_across_providers ["a", "b", "c"]
          (_merge_across_providers ["a", "b", "c"] [] [] [c3ra] "a").1
          (_merge_across_providers ["a", "b", "c"] [] [] [c3ra] "a").2 [c3rb] "b").2
        [c3rc] "c").1 "doi::x")
    ≠ (lookupStr (_merge_across_providers ["a", "b", "c"]
        (_merge_across_providers ["a", "b", "c"]
          (_merge_across_providers ["a", "b", "c"] [] [] [c3ra] "a").1
          (_merge_across_providers ["a", "b", "c"] [] [] [c3ra] "a").2 [c3rc] "c").1
        (_merge_across_providers ["a", "b", "c"]
          (_merge_across_providers ["a", "b", "c"] [] [] [c3ra] "a").1
          (_merge_across_providers ["a", "b", "c"] [] [] [c3ra] "a").2 [c3rc] "c").2
        [c3rb] "b").1 "doi::x") := by
  decide

/-- C3 (amended): for two providers with the first strictly preferred over the
second, each contributing a batch with pairwise-distinct dedup keys, inserting
the two batches into an empty dedup bucket in either order yields the same
merged record for every dedup key (with three or more providers, or duplicate
keys inside one batch, the final content depends on the insertion order). -/
theorem merge_across_two_providers_comm
    (pref : List String) (p1 p2 : String) (rs1 rs2 : List MetadataRecord)
    (h12 : _prefer pref p1 p2 = true)
    (hk1 : (rs1.map MetadataRecord.dedup_key).Nodup)
    (hk2 : (rs2.map MetadataRecord.dedup_key).Nodup)
    (k : String) :
    lookupStr (_merge_across_providers pref
        (_merge_across_providers pref [] [] rs1 p1).1
        (_merge_across_providers pref [] [] rs1 p1).2 rs2 p2).1 k
    = lookupStr (_merge_across_providers pref
        (_merge_across_providers pref [] [] rs2 p2).1
        (_merge_across_providers pref [] [] rs2 p2).2 rs1 p1).1 k := by
  have h21 : _prefer pref p2 p1 = false := _prefer_asymm pref p1 p2 h12
  have hL := congrArg Prod.fst (mergeAcross_lookup pref p2 rs2
    (_merge_across_providers pref [] [] rs1 p1).1
    (_merge_across_providers pref [] [] rs1 p1).2 k)
  have hR := congrArg Prod.fst (mergeAcross_lookup pref p1 rs1
    (_merge_across_providers pref [] [] rs2 p2).1
    (_merge_across_providers pref [] [] rs2 p2).2 k)
  have hL0 := mergeAcross_lookup pref p1 rs1 [] [] k
  have hR0 := mergeAcross_lookup pref p2 rs2 [] [] k
  dsimp only at hL hR
  rw [hL0] at hL
  rw [hR0] at hR
  rw [hL, hR]
  rcases filter_key_of_nodup rs1 k hk1 with hf1 | hf1x <;>
    rcases filter_key_of_nodup rs2 k hk2 with hf2 | hf2x
  · rw [hf1, hf2]
    rfl
  · obtain ⟨r2, hf2, hr2⟩ := hf2x
    rw [hf1, hf2]
    simp [perKeyInsert, lookupStr]
  · obtain ⟨r1, hf1, hr1⟩ := hf1x
    rw [hf1, hf2]
    simp [perKeyInsert, lookupStr]
  · obtain ⟨r1, hf1, hr1⟩ := hf1x
    obtain ⟨r2, hf2, hr2⟩ := hf2x
    rw [hf1, hf2]
    simp [perKeyInsert, lookupStr, h12, h21]

theorem merge_across_two_providers_comm_witness :
    _prefer ["a", "b"] "a" "b" = true
    ∧ ([c3rb].map MetadataRecord.dedup_key).Nodup
    ∧ ([c3rc].map MetadataRecord.dedup_key).Nodup
    ∧ lookupStr (_merge_across_providers ["a", "b"]
        (_merge_across_providers ["a", "b"] [] [] [c3rb] "a").1
        (_merge_across_providers ["a", "b"] [] [] [c3rb] "a").2 [c3rc] "b").1 "doi::x"
      = lookupStr (_merge_across_providers ["a", "b"]
        (_merge_across_providers ["a", "b"] [] [] [c3rc] "b").1
        (_merge_across_providers ["a", "b"] [] [] [c3rc] "b").2 [c3rb] "a").1 "doi::x" :=
  ⟨by decide, by decide, by decide,
   merge_across_two_providers_comm ["a", "b"] "a" "b" [c3rb] [c3rc]
     (by decide) (by decide) (by decide) "doi::x"⟩

theorem succ_isSome_applyResult (fetch : String → String → Option String)
    (B : String) (st : SchedState) (e d : String)
    (h : (lookupStr (applyResult fetch B st e).succ d).isSome = true) :
    (lookupStr st.succ d).isSome = true ∨ d = e := by
  unfold applyResult at h
  cases hf : fetch B e with
  | none => rw [hf] at h; exact Or.inl h
  | some p =>
      rw [hf] at h
      by_cases hde : d = e
      · exact Or.inr hde
      · left
        have hne : d ≠ e := hde
        rw [lookupStr_setKey_ne _ _ _ _ hne] at h
        exact h

theorem succ_isSome_foldBatch (fetch : String → String → Option String)
    (B : String) (batch : List String) :
    ∀ (st : SchedState) (d : String),
      (lookupStr (batch.foldl (applyResult fetch B) st).succ d).isSome = true →
      (lookupStr st.succ d).isSome = true ∨ d ∈ batch := by
  induction batch with
  | nil => intro st d h; exact Or.inl h
  | cons e rest ih =>
      intro st d h
      rw [List.foldl_cons] at h
      rcases ih (applyResult fetch B st e) d h with h1 | h1
      · rcases succ_isSome_applyResult fetch B st e d h1 with h2 | h2
        · exact Or.inl h2
        · exact Or.inr (by simp [h2])
      · exact Or.inr (List.mem_cons_of_mem e h1)

theorem phaseBatch_subset (doiOrder : List String) (st : SchedState) (B : String)
    (d : String) (h : d ∈ phaseBatch doiOrder st B) : d ∈ doiOrder := by
  unfold phaseBatch at h
  exact (List.mem_filter.mp h).1

theorem succ_isSome_runPhases (fetch : String → String → Option String)
    (doiOrder : List String) (phases : List String) :
    ∀ (st : SchedState) (d : String),
      (lookupStr (runPhases fetch doiOrder phases st).1.succ d).isSome = true →
      (lookupStr st.succ d).isSome = true ∨ d ∈ doiOrder := by
  induction phases with
  | nil => intro st d h; exact Or.inl h
  | cons B rest ih =>
      intro st d h
      unfold runPhases runPhase at h
      simp only at h
      rcases ih _ d h with h1 | h1
      · rcases succ_isSome_foldBatch fetch B (phaseBatch doiOrder st B) st d h1 with h2 | h2
        · exact Or.inl h2
        · exact Or.inr (phaseBatch_subset doiOrder st B d h2)
      · exact Or.inr h1

theorem succ_isSome_scihubPhase (fetch : String → String → Option String)
    (name : String) (pending : List String) :
    ∀ (s : List (String × String)) (d : String),
      (lookupStr (scihubPhase fetch name pending s) d).isSome = true →
      (lookupStr s d).isSome = true ∨ d ∈ pending := by
  induction pending with
  | nil => intro s d h; exact Or.inl h
  | cons e rest ih =>
      intro s d h
      unfold scihubPhase at h
      rw [List.foldl_cons] at h
      have step : ∀ s' : List (String × String),
          (lookupStr (match fetch name e with
            | some p => setKey s' e p
            | none => s') d).isSome = true →
          (lookupStr s' d).isSome = true ∨ d = e := by
        intro s' h'
        cases hf : fetch name e with
        | none => rw [hf] at h'; exact Or.inl h'
        | some p =>
            rw [hf] at h'
            by_cases hde : d = e
            · exact Or.inr hde
            · rw [lookupStr_setKey_ne _ _ _ _ hde] at h'
              exact Or.inl h'
      rcases ih _ d h with h1 | h1
      · rcases step s h1 with h2 | h2
        · exact Or.inl h2
        · exact Or.inr (by simp [h2])
      · exact Or.inr (List.mem_cons_of_mem e h1)

/-- C7: at the end of every acquisition run, the resolved map and the failed
list partition the deduplicated input identifiers — no identifier is in both,
and an identifier is an input identifier exactly when it is in one of them. -/
theorem download_resolved_failed_partition (configured registered : List String)
    (providerArg : Option String) (dois : List String)
    (fetch : String → String → Option String) (d : String) :
    ¬((lookupStr (download_fulltexts configured registered providerArg dois fetch).resolved d).isSome = true
        ∧ d ∈ (download_fulltexts configured registered providerArg dois fetch).failed)
    ∧ (d ∈ (download_fulltexts configured registered providerArg dois fetch).doiOrder
        ↔ (lookupStr (download_fulltexts configured registered providerArg dois fetch).resolved d).isSome = true
          ∨ d ∈ (download_fulltexts configured registered providerArg dois fetch).failed) := by
  unfold download_fulltexts
  by_cases h1 : buildFallbackOrder configured registered = []
  · simp [h1, lookupStr]
  · by_cases h2 : dedupedOf providerArg dois = []
    · simp [h1, h2, lookupStr]
    · by_cases h3 : initPlanOf configured registered providerArg dois = []
      · simp [h1, h2, h3, lookupStr]
      · simp only [if_neg h1, if_neg h2, if_neg h3]
        have hrun : ∀ (succFinal : List (String × String)),
            ((lookupStr succFinal d).isSome = true → d ∈ doiOrderOf providerArg dois) →
            ¬((lookupStr succFinal d).isSome = true
                ∧ d ∈ (doiOrderOf providerArg dois).filter
                    (fun x => (lookupStr succFinal x).isNone))
            ∧ (d ∈ doiOrderOf providerArg dois
                ↔ (lookupStr succFinal d).isSome = true
                  ∨ d ∈ (doiOrderOf providerArg dois).filter
                      (fun x => (lookupStr succFinal x).isNone)) := by
          intro succFinal hsub
          constructor
          · rintro ⟨hs, hf⟩
            have := (List.mem_filter.mp hf).2
            simp only [Option.isNone_iff_eq_none] at this
            rw [this] at hs
            simp at hs
          · constructor
            · intro hd
              cases hcase : (lookupStr succFinal d).isSome with
              | true => exact Or.inl rfl
              | false =>
                  right
                  rw [List.mem_filter]
                  refine ⟨hd, ?_⟩
                  simp only [Option.isNone_iff_eq_none]
                  cases hl : lookupStr succFinal d with
                  | none => rfl
                  | some p => rw [hl] at hcase; simp at hcase
            · rintro (hs | hf)
              · exact hsub hs
              · exact (List.mem_filter.mp hf).1
        have hbase : ∀ dd : String, (lookupStr (([] : List (String × String))) dd).isSome = true → False := by
          intro dd h
          simp [lookupStr] at h
        cases hsci : scihubProvider registered with
        | none =>
            simp only []
            apply hrun
            intro hs
            rcases succ_isSome_runPhases fetch (doiOrderOf providerArg dois)
                (buildFallbackOrder configured registered)
                ⟨initPlanOf configured registered providerArg dois, []⟩ d hs with h | h
            · exact absurd h (by simp [lookupStr])
            · exact h
        | some sci =>
            by_cases hpend : (doiOrderOf providerArg dois).filter
                (fun x => (lookupStr (runPhases fetch (doiOrderOf providerArg dois)
                  (buildFallbackOrder configured registered)
                  ⟨initPlanOf configured registered providerArg dois, []⟩).1.succ x).isNone) ≠ []
            · simp only [if_pos hpend]
              apply hrun
              intro hs
              rcases succ_isSome_scihubPhase fetch sci _ _ d hs with h | h
              · rcases succ_isSome_runPhases fetch (doiOrderOf providerArg dois)
                    (buildFallbackOrder configured registered)
                    ⟨initPlanOf configured registered providerArg dois, []⟩ d h with h' | h'
                · exact absurd h' (by simp [lookupStr])
                · exact h'
              · exact (List.mem_filter.mp h).1
            · simp only [if_neg hpend]
              apply hrun
              intro hs
              rcases succ_isSome_runPhases fetch (doiOrderOf providerArg dois)
                  (buildFallbackOrder configured registered)
                  ⟨initPlanOf configured registered providerArg dois, []⟩ d hs with h | h
              · exact absurd h (by simp [lookupStr])
              · exact h

theorem string_data_append (s t : String) : (s ++ t).data = s.data ++ t.data := by
  cases s
  cases t
  rfl

theorem title_key_ne_doi_key (a b : String) : ("title::" ++ a) ≠ ("doi::" ++ b) := by
  intro h
  have hd : ("title::" ++ a).data = ("doi::" ++ b).data := congrArg String.data h
  rw [string_data_append, string_data_append] at hd
  have e1 : ("title::" : String).data = ['t', 'i', 't', 'l', 'e', ':', ':'] := rfl
  have e2 : ("doi::" : String).data = ['d', 'o', 'i', ':', ':'] := rfl
  rw [e1, e2] at hd
  simp only [List.cons_append] at hd
  injection hd with h1 h2
  exact absurd h1 (by decide)

theorem string_append_left_cancel (p a b : String) (h : p ++ a = p ++ b) : a = b := by
  have hd : (p ++ a).data = (p ++ b).data := congrArg String.data h
  rw [string_data_append, string_data_append] at hd
  have h2 := List.append_cancel_left hd
  cases a
  cases b
  exact congrArg String.mk h2

theorem dedup_key_of_hasNormDoi (n : String) (r : MetadataRecord)
    (h : hasNormDoi n r) : r.dedup_key = "doi::" ++ n := by
  unfold MetadataRecord.dedup_key
  rw [if_pos h.1, h.2]

theorem hasNormDoi_of_dedup_key (n : String) (r : MetadataRecord)
    (h : r.dedup_key = "doi::" ++ n) : hasNormDoi n r := by
  unfold MetadataRecord.dedup_key at h
  by_cases hdoi : r.doi = ""
  · rw [if_neg (by simp [hdoi])] at h
    exact absurd h (title_key_ne_doi_key _ n)
  · rw [if_pos hdoi] at h
    exact ⟨hdoi, string_append_left_cancel "doi::" _ n h⟩

theorem hasNormDoi_merge (n : String) (x y : MetadataRecord)
    (hx : hasNormDoi n x) : hasNormDoi n (merge_records x y) := by
  have hdoi : (merge_records x y).doi = x.doi := by
    show pyOr x.doi y.doi = x.doi
    unfold pyOr
    rw [if_neg hx.1]
  exact ⟨by rw [hdoi]; exact hx.1, by rw [hdoi]; exact hx.2⟩

theorem hasNormDoi_merge_elim (n : String) (x y : MetadataRecord)
    (h : hasNormDoi n (merge_records x y)) : hasNormDoi n x ∨ hasNormDoi n y := by
  obtain ⟨h1, h2⟩ := h
  have hdoi : (merge_records x y).doi = if x.doi = "" then y.doi else x.doi := rfl
  rw [hdoi] at h1 h2
  by_cases hx : x.doi = ""
  · rw [if_pos hx] at h1 h2
    exact Or.inr ⟨h1, h2⟩
  · rw [if_neg hx] at h1 h2
    exact Or.inl ⟨h1, h2⟩

theorem lookupStr_eq_none_iff {α : Type} (m : List (String × α)) (k : String) :
    lookupStr m k = none ↔ k ∉ m.map Prod.fst := by
  induction m with
  | nil => simp [lookupStr]
  | cons p rest ih =>
      simp only [lookupStr, List.map_cons, List.mem_cons]
      by_cases hp : p.1 = k
      · simp [hp]
      · simp [hp, ih, Ne.symm hp]

theorem lookupStr_some_mem_keys {α : Type} (m : List (String × α)) (k : String) (v : α)
    (h : lookupStr m k = some v) : k ∈ m.map Prod.fst := by
  by_contra hmem
  rw [← lookupStr_eq_none_iff] at hmem
  rw [hmem] at h
  cases h

theorem lookupStr_some_mem_pair {α : Type} (m : List (String × α)) (k : String) (v : α)
    (h : lookupStr m k = some v) : (k, v) ∈ m := by
  induction m with
  | nil => cases h
  | cons p rest ih =>
      obtain ⟨k1, v1⟩ := p
      by_cases hp : k1 = k
      · simp only [lookupStr, if_pos hp] at h
        injection h with h2
        rw [← hp, ← h2]
        exact List.mem_cons_self _ _
      · simp only [lookupStr, if_neg hp] at h
        exact List.mem_cons_of_mem _ (ih h)

theorem mem_setKey_elim {α : Type} (m : List (String × α)) (k : String) (v : α)
    (kv : String × α) (h : kv ∈ setKey m k v) : kv ∈ m ∨ kv = (k, v) := by
  induction m with
  | nil =>
      simp only [setKey, List.mem_singleton] at h
      exact Or.inr h
  | cons p rest ih =>
      obtain ⟨k1, v1⟩ := p
      by_cases hp : k1 = k
      · simp only [setKey, if_pos hp] at h
        rcases List.mem_cons.mp h with h2 | h2
        · right
          rw [h2, hp]
        · exact Or.inl (List.mem_cons_of_mem _ h2)
      · simp only [setKey, if_neg hp] at h
        rcases List.mem_cons.mp h with h2 | h2
        · left
          rw [h2]
          exact List.mem_cons_self _ _
        · rcases ih h2 with h3 | h3
          · exact Or.inl (List.mem_cons_of_mem _ h3)
          · exact Or.inr h3

theorem keys_setKey_of_mem {α : Type} (m : List (String × α)) (k : String) (v w : α)
    (h : lookupStr m k = some w) :
    (setKey m k v).map Prod.fst = m.map Prod.fst := by
  induction m with
  | nil => cases h
  | cons p rest ih =>
      obtain ⟨k1, v1⟩ := p
      by_cases hp : k1 = k
      · simp [setKey, hp]
      · simp only [lookupStr, if_neg hp] at h
        simp [setKey, hp, ih h]

theorem keys_setKey_mono {α : Type} (m : List (String × α)) (k kq : String) (v : α)
    (h : kq ∈ m.map Prod.fst) : kq ∈ (setKey m k v).map Prod.fst := by
  cases hl : lookupStr m k with
  | some w => rw [keys_setKey_of_mem m k v w hl]; exact h
  | none => rw [setKey_of_lookup_none m k v hl]; simp [h]

theorem mem_keys_setKey_self {α : Type} (m : List (String × α)) (k : String) (v : α) :
    k ∈ (setKey m k v).map Prod.fst :=
  lookupStr_some_mem_keys _ k v (lookupStr_setKey_self m k v)

theorem nodup_keys_setKey {α : Type} (m : List (String × α)) (k : String) (v : α)
    (h : (m.map Prod.fst).Nodup) : ((setKey m k v).map Prod.fst).Nodup := by
  cases hl : lookupStr m k with
  | some w => rw [keys_setKey_of_mem m k v w hl]; exact h
  | none =>
      rw [setKey_of_lookup_none m k v hl]
      rw [lookupStr_eq_none_iff] at hl
      simp [List.nodup_append, h, hl]

theorem mergeInsert_inv (pref : List String) (p n : String)
    (b : List (String × MetadataRecord)) (s : List (String × String)) (r : MetadataRecord)
    (hN : (b.map Prod.fst).Nodup)
    (hO : ∀ kv ∈ b, hasNormDoi n kv.2 → kv.1 = "doi::" ++ n)
    (hG : ∀ v, lookupStr b ("doi::" ++ n) = some v → hasNormDoi n v) :
    (((mergeInsert pref p (b, s) r).1.map Prod.fst).Nodup)
    ∧ (∀ kv ∈ (mergeInsert pref p (b, s) r).1, hasNormDoi n kv.2 → kv.1 = "doi::" ++ n)
    ∧ (∀ v, lookupStr (mergeInsert pref p (b, s) r).1 ("doi::" ++ n) = some v →
        hasNormDoi n v)
    ∧ (∀ kq, kq ∈ b.map Prod.fst → kq ∈ (mergeInsert pref p (b, s) r).1.map Prod.fst)
    ∧ (hasNormDoi n r → ("doi::" ++ n) ∈ (mergeInsert pref p (b, s) r).1.map Prod.fst) := by
  have main : ∀ merged : MetadataRecord,
      (r.dedup_key = "doi::" ++ n → hasNormDoi n merged)
      → (hasNormDoi n merged → hasNormDoi n r ∨
          (∃ ex, lookupStr b r.dedup_key = some ex ∧ hasNormDoi n ex))
      → (((setKey b r.dedup_key merged).map Prod.fst).Nodup)
        ∧ (∀ kv ∈ setKey b r.dedup_key merged, hasNormDoi n kv.2 → kv.1 = "doi::" ++ n)
        ∧ (∀ v, lookupStr (setKey b r.dedup_key merged) ("doi::" ++ n) = some v →
            hasNormDoi n v)
        ∧ (∀ kq, kq ∈ b.map Prod.fst → kq ∈ (setKey b r.dedup_key merged).map Prod.fst)
        ∧ (hasNormDoi n r →
            ("doi::" ++ n) ∈ (setKey b r.dedup_key merged).map Prod.fst) := by
    intro merged hMP hMElim
    refine ⟨nodup_keys_setKey _ _ _ hN, ?_, ?_, ?_, ?_⟩
    · intro kv hkv hP
      rcases mem_setKey_elim _ _ _ _ hkv with h2 | h2
      · exact hO kv h2 hP
      · rw [h2] at hP ⊢
        simp only at hP ⊢
        rcases hMElim hP with h3 | ⟨ex, hex, h3⟩
        · exact dedup_key_of_hasNormDoi n r h3
        · exact hO (r.dedup_key, ex) (lookupStr_some_mem_pair _ _ _ hex) h3
    · intro v hv
      by_cases hk : r.dedup_key = "doi::" ++ n
      · rw [hk, lookupStr_setKey_self] at hv
        injection hv with hv2
        rw [← hv2]
        exact hMP hk
      · rw [lookupStr_setKey_ne _ _ _ _ (fun he => hk he.symm)] at hv
        exact hG v hv
    · intro kq hkq
      exact keys_setKey_mono _ _ _ _ hkq
    · intro hPr
      have hkeq := dedup_key_of_hasNormDoi n r hPr
      rw [← hkeq]
      exact mem_keys_setKey_self _ _ _
  unfold mergeInsert
  cases hl : lookupStr b r.dedup_key with
  | none =>
      simp only [hl]
      refine main r ?_ ?_
      · intro hk
        exact hasNormDoi_of_dedup_key n r hk
      · intro hPr
        exact Or.inl hPr
  | some existing =>
      simp only [hl]
      by_cases hpref : _prefer pref p ((lookupStr s r.dedup_key).getD "") = true
      · rw [if_pos hpref]
        simp only
        refine main (merge_records r existing) ?_ ?_
        · intro hk
          exact hasNormDoi_merge n r existing (hasNormDoi_of_dedup_key n r hk)
        · intro h
          rcases hasNormDoi_merge_elim n r existing h with h2 | h2
          · exact Or.inl h2
          · exact Or.inr ⟨existing, hl, h2⟩
      · rw [if_neg hpref]
        simp only
        refine main (merge_records existing r) ?_ ?_
        · intro hk
          have hPe : hasNormDoi n existing := hG existing (by rw [← hk]; exact hl)
          exact hasNormDoi_merge n existing r hPe
        · intro h
          rcases hasNormDoi_merge_elim n existing r h with h2 | h2
          · exact Or.inr ⟨existing, hl, h2⟩
          · exact Or.inl h2

theorem mergeAcross_inv (pref : List String) (p n : String) (rs : List MetadataRecord) :
    ∀ (b : List (String × MetadataRecord)) (s : List (String × String)),
      ((b.map Prod.fst).Nodup) →
      (∀ kv ∈ b, hasNormDoi n kv.2 → kv.1 = "doi::" ++ n) →
      (∀ v, lookupStr b ("doi::" ++ n) = some v → hasNormDoi n v) →
      (((_merge_across_providers pref b s rs p).1.map Prod.fst).Nodup)
      ∧ (∀ kv ∈ (_merge_across_providers pref b s rs p).1,
          hasNormDoi n kv.2 → kv.1 = "doi::" ++ n)
      ∧ (∀ v, lookupStr (_merge_across_providers pref b s rs p).1 ("doi::" ++ n) = some v →
          hasNormDoi n v)
      ∧ (∀ kq, kq ∈ b.map Prod.fst →
          kq ∈ (_merge_across_providers pref b s rs p).1.map Prod.fst)
      ∧ (∀ r ∈ rs, hasNormDoi n r →
          ("doi::" ++ n) ∈ (_merge_across_providers pref b s rs p).1.map Prod.fst) := by
  induction rs with
  | nil =>
      intro b s hN hO hG
      exact ⟨hN, hO, hG, fun kq h => h, fun r h => absurd h (List.not_mem_nil r)⟩
  | cons r rest ih =>
      intro b s hN hO hG
      have hcons : _merge_across_providers pref b s (r :: rest) p
          = _merge_across_providers pref (mergeInsert pref p (b, s) r).1
              (mergeInsert pref p (b, s) r).2 rest p := by
        unfold _merge_across_providers
        simp [List.foldl_cons]
      obtain ⟨sN, sO, sG, sMono, sPres⟩ := mergeInsert_inv pref p n b s r hN hO hG
      obtain ⟨fN, fO, fG, fMono, fPres⟩ :=
        ih (mergeInsert pref p (b, s) r).1 (mergeInsert pref p (b, s) r).2 sN sO sG
      rw [hcons]
      refine ⟨fN, fO, fG, ?_, ?_⟩
      · intro kq hkq
        exact fMono kq (sMono kq hkq)
      · intro r' hr' hP
        rcases List.mem_cons.mp hr' with h2 | h2
        · rw [h2] at hP
          exact fMono _ (sPres hP)
        · exact fPres r' h2 hP

theorem fetchStep_inv (cfg : FetchConfig) (oracle : ProviderOracle)
    (query : String) (max_results : Int) (n : String)
    (st : List (String × MetadataRecord) × List (String × String)) (prov : String)
    (hN : (st.1.map Prod.fst).Nodup)
    (hO : ∀ kv ∈ st.1, hasNormDoi n kv.2 → kv.1 = "doi::" ++ n)
    (hG : ∀ v, lookupStr st.1 ("doi::" ++ n) = some v → hasNormDoi n v) :
    (((fetchStep cfg oracle query max_results st prov).1.map Prod.fst).Nodup)
    ∧ (∀ kv ∈ (fetchStep cfg oracle query max_results st prov).1,
        hasNormDoi n kv.2 → kv.1 = "doi::" ++ n)
    ∧ (∀ v, lookupStr (fetchStep cfg oracle query max_results st prov).1 ("doi::" ++ n)
        = some v → hasNormDoi n v)
    ∧ (∀ kq, kq ∈ st.1.map Prod.fst →
        kq ∈ (fetchStep cfg oracle query max_results st prov).1.map Prod.fst)
    ∧ (∀ r ∈ insertedRecords cfg oracle query max_results prov, hasNormDoi n r →
        ("doi::" ++ n) ∈ (fetchStep cfg oracle query max_results st prov).1.map Prod.fst) := by
  unfold fetchStep
  by_cases hrec : insertedRecords cfg oracle query max_results prov = []
  · rw [if_pos hrec]
    refine ⟨hN, hO, hG, fun kq h => h, ?_⟩
    intro r hr
    rw [hrec] at hr
    exact absurd hr (List.not_mem_nil r)
  · rw [if_neg hrec]
    exact mergeAcross_inv cfg.preference (strTrim (strLower prov)) n
      (insertedRecords cfg oracle query max_results prov) st.1 st.2 hN hO hG

theorem fetchFold_inv (cfg : FetchConfig) (oracle : ProviderOracle)
    (query : String) (max_results : Int) (n : String) (l : List String) :
    ∀ st : List (String × MetadataRecord) × List (String × String),
      ((st.1.map Prod.fst).Nodup) →
      (∀ kv ∈ st.1, hasNormDoi n kv.2 → kv.1 = "doi::" ++ n) →
      (∀ v, lookupStr st.1 ("doi::" ++ n) = some v → hasNormDoi n v) →
      (((l.foldl (fetchStep cfg oracle query max_results) st).1.map Prod.fst).Nodup)
      ∧ (∀ kv ∈ (l.foldl (fetchStep cfg oracle query max_results) st).1,
          hasNormDoi n kv.2 → kv.1 = "doi::" ++ n)
      ∧ (∀ v, lookupStr (l.foldl (fetchStep cfg oracle query max_results) st).1
          ("doi::" ++ n) = some v → hasNormDoi n v)
      ∧ (∀ kq, kq ∈ st.1.map Prod.fst →
          kq ∈ (l.foldl (fetchStep cfg oracle query max_results) st).1.map Prod.fst) := by
  induction l with
  | nil => intro st hN hO hG; exact ⟨hN, hO, hG, fun kq h => h⟩
  | cons q rest ih =>
      intro st hN hO hG
      obtain ⟨sN, sO, sG, sMono, _⟩ :=
        fetchStep_inv cfg oracle query max_results n st q hN hO hG
      obtain ⟨fN, fO, fG, fMono⟩ :=
        ih (fetchStep cfg oracle query max_results st q) sN sO sG
      rw [List.foldl_cons]
      exact ⟨fN, fO, fG, fun kq h => fMono kq (sMono kq h)⟩

theorem fetchFold_presence (cfg : FetchConfig) (oracle : ProviderOracle)
    (query : String) (max_results : Int) (n : String) (l : List String)
    (prov1 : String) (r1 : MetadataRecord)
    (hr1 : r1 ∈ insertedRecords cfg oracle query max_results prov1)
    (hP : hasNormDoi n r1) :
    ∀ st : List (String × MetadataRecord) × List (String × String),
      prov1 ∈ l →
      ((st.1.map Prod.fst).Nodup) →
      (∀ kv ∈ st.1, hasNormDoi n kv.2 → kv.1 = "doi::" ++ n) →
      (∀ v, lookupStr st.1 ("doi::" ++ n) = some v → hasNormDoi n v) →
      ("doi::" ++ n) ∈ (l.foldl (fetchStep cfg oracle query max_results) st).1.map Prod.fst := by
  induction l with
  | nil => intro st hmem; exact absurd hmem (List.not_mem_nil prov1)
  | cons q rest ih =>
      intro st hmem hN hO hG
      obtain ⟨sN, sO, sG, sMono, sPres⟩ :=
        fetchStep_inv cfg oracle query max_results n st q hN hO hG
      rw [List.foldl_cons]
      rcases List.mem_cons.mp hmem with h2 | h2
      · have hpres : ("doi::" ++ n)
            ∈ (fetchStep cfg oracle query max_results st q).1.map Prod.fst := by
          rw [h2] at hr1
          exact sPres r1 hr1 hP
        obtain ⟨_, _, _, fMono⟩ :=
          fetchFold_inv cfg oracle query max_results n rest
            (fetchStep cfg oracle query max_results st q) sN sO sG
        exact fMono _ hpres
      · exact ih (fetchStep cfg oracle query max_results st q) h2 sN sO sG

theorem countP_values_of_inv (n : String) (b : List (String × MetadataRecord))
    (hN : (b.map Prod.fst).Nodup)
    (hO : ∀ kv ∈ b, hasNormDoi n kv.2 → kv.1 = "doi::" ++ n)
    (hG : ∀ v, lookupStr b ("doi::" ++ n) = some v → hasNormDoi n v) :
    ((b.map Prod.snd).countP (fun r => decide (hasNormDoi n r)) ≤ 1)
    ∧ (("doi::" ++ n) ∈ b.map Prod.fst →
        (b.map Prod.snd).countP (fun r => decide (hasNormDoi n r)) = 1) := by
  induction b with
  | nil =>
      constructor
      · simp
      · intro h; simp at h
  | cons kv rest ih =>
      obtain ⟨k0, v0⟩ := kv
      have hN0 : k0 ∉ rest.map Prod.fst ∧ (rest.map Prod.fst).Nodup := by
        simpa [List.nodup_cons] using hN
      have hO' : ∀ kv ∈ rest, hasNormDoi n kv.2 → kv.1 = "doi::" ++ n :=
        fun kv h => hO kv (List.mem_cons_of_mem _ h)
      have hG' : ∀ v, lookupStr rest ("doi::" ++ n) = some v → hasNormDoi n v := by
        intro v hv
        by_cases hk0 : k0 = "doi::" ++ n
        · have hmem := lookupStr_some_mem_keys rest _ v hv
          rw [← hk0] at hmem
          exact absurd hmem hN0.1
        · apply hG
          simp only [lookupStr]
          rw [if_neg hk0]
          exact hv
      obtain ⟨ih1, ih2⟩ := ih hN0.2 hO' hG'
      by_cases hP0 : hasNormDoi n v0
      · have hk0 : k0 = "doi::" ++ n := hO (k0, v0) (List.mem_cons_self _ _) hP0
        have hzero : (rest.map Prod.snd).countP (fun r => decide (hasNormDoi n r)) = 0 := by
          rw [List.countP_eq_zero]
          intro a ha hPa
          obtain ⟨kv', hkv', hkveq⟩ := List.mem_map.mp ha
          have hPkv : hasNormDoi n kv'.2 := by
            rw [hkveq]
            simpa using hPa
          have hkey := hO' kv' hkv' hPkv
          apply hN0.1
          rw [hk0, ← hkey]
          exact List.mem_map_of_mem Prod.fst hkv'
        constructor
        · simp [List.countP_cons, hzero, hP0]
        · intro _
          simp [List.countP_cons, hzero, hP0]
      · have hhead : (((k0, v0) :: rest).map Prod.snd).countP
            (fun r => decide (hasNormDoi n r))
            = (rest.map Prod.snd).countP (fun r => decide (hasNormDoi n r)) := by
          simp [List.countP_cons, hP0]
        constructor
        · rw [hhead]; exact ih1
        · intro hmem
          rw [hhead]
          rw [List.map_cons] at hmem
          rcases List.mem_cons.mp hmem with h2 | h2
          · exfalso
            apply hP0
            apply hG v0
            simp only [lookupStr]
            rw [if_pos h2.symm]
          · exact ih2 h2

theorem sum_countP_setKey_pop (P : MetadataRecord → Bool)
    (bks : List (String × List MetadataRecord)) (prov : String)
    (r : MetadataRecord) (q : List MetadataRecord)
    (h : lookupStr bks prov = some (r :: q)) :
    ((setKey bks prov q).map (fun kv => kv.2.countP P)).sum + (if P r then 1 else 0)
      = (bks.map (fun kv => kv.2.countP P)).sum := by
  induction bks with
  | nil => cases h
  | cons kv rest ih =>
      obtain ⟨k0, q0⟩ := kv
      by_cases hk : k0 = prov
      · simp only [lookupStr, if_pos hk] at h
        injection h with h2
        simp only [setKey, if_pos hk, List.map_cons, List.sum_cons]
        rw [h2]
        simp [List.countP_cons]
        omega
      · simp only [lookupStr, if_neg hk] at h
        simp only [setKey, if_neg hk, List.map_cons, List.sum_cons]
        have := ih h
        omega

theorem sum_countP_popKey (P : MetadataRecord → Bool)
    (bks : List (String × List MetadataRecord)) (prov : String) (r : MetadataRecord)
    (h : lookupStr bks prov = some [r]) :
    ((popKey bks prov).map (fun kv => kv.2.countP P)).sum + (if P r then 1 else 0)
      = (bks.map (fun kv => kv.2.countP P)).sum := by
  induction bks with
  | nil => cases h
  | cons kv rest ih =>
      obtain ⟨k0, q0⟩ := kv
      by_cases hk : k0 = prov
      · simp only [lookupStr, if_pos hk] at h
        injection h with h2
        simp only [popKey, if_pos hk, List.map_cons, List.sum_cons]
        rw [h2]
        simp [List.countP_cons]
        omega
      · simp only [lookupStr, if_neg hk] at h
        simp only [popKey, if_neg hk, List.map_cons, List.sum_cons]
        have := ih h
        omega

theorem sum_countP_setKey_append (P : MetadataRecord → Bool)
    (acc : List (String × List MetadataRecord)) (prov : String)
    (r : MetadataRecord) (q : List MetadataRecord)
    (h : lookupStr acc prov = some q) :
    ((setKey acc prov (q ++ [r])).map (fun kv => kv.2.countP P)).sum
      = (acc.map (fun kv => kv.2.countP P)).sum + (if P r then 1 else 0) := by
  induction acc with
  | nil => cases h
  | cons kv rest ih =>
      obtain ⟨k0, q0⟩ := kv
      by_cases hk : k0 = prov
      · simp only [lookupStr, if_pos hk] at h
        injection h with h2
        simp only [setKey, if_pos hk, List.map_cons, List.sum_cons]
        rw [h2]
        simp [List.countP_append, List.countP_cons]
        omega
      · simp only [lookupStr, if_neg hk] at h
        simp only [setKey, if_neg hk, List.map_cons, List.sum_cons]
        have := ih h
        omega

theorem trimBuckets_sum_countP (P : MetadataRecord → Bool) (records : List MetadataRecord) :
    ((trimBuckets records).map (fun kv => kv.2.countP P)).sum = records.countP P := by
  suffices h : ∀ acc : List (String × List MetadataRecord),
      ((records.foldl
        (fun bs r =>
          let provider := strLower (pyOr r.source "unknown")
          match lookupStr bs provider with
          | some q => setKey bs provider (q ++ [r])
          | none => bs ++ [(provider, [r])]) acc).map (fun kv => kv.2.countP P)).sum
      = (acc.map (fun kv => kv.2.countP P)).sum + records.countP P by
    have := h []
    simpa [trimBuckets] using this
  induction records with
  | nil => intro acc; simp
  | cons r rest ih =>
      intro acc
      rw [List.foldl_cons]
      cases hl : lookupStr acc (strLower (pyOr r.source "unknown")) with
      | some q =>
          simp only [hl]
          rw [ih, sum_countP_setKey_append P acc _ r q hl]
          simp [List.countP_cons]
          omega
      | none =>
          simp only [hl]
          rw [ih]
          simp [List.countP_cons, List.countP_append]
          omega

theorem trimLoop_countP_le (P : MetadataRecord → Bool) (limit : Int) (porder : List String) :
    ∀ (fuel : Nat) (sel : List MetadataRecord) (act : List String)
      (bks : List (String × List MetadataRecord)),
      (trimLoop fuel limit porder sel act bks).countP P
        ≤ sel.countP P + (bks.map (fun kv => kv.2.countP P)).sum := by
  intro fuel
  induction fuel with
  | zero =>
      intro sel act bks
      exact Nat.le_add_right _ _
  | succ fuel ih =>
      intro sel act bks
      unfold trimLoop
      by_cases hc : ((sel.length : Int) < limit ∧ bks ≠ [])
      · rw [if_pos hc]
        have hmain : ∀ act0 : List String,
            (match act0 with
              | [] => sel
              | provider :: rest =>
                match lookupStr bks provider with
                | none => trimLoop fuel limit porder sel rest bks
                | some [] => trimLoop fuel limit porder sel rest bks
                | some (r :: q) =>
                  if q ≠ [] then
                    trimLoop fuel limit porder (sel ++ [r]) (rest ++ [provider])
                      (setKey bks provider q)
                  else
                    trimLoop fuel limit porder (sel ++ [r]) rest
                      (popKey bks provider)).countP P
            ≤ sel.countP P + (bks.map (fun kv => kv.2.countP P)).sum := by
          intro act0
          cases act0 with
          | nil => exact Nat.le_add_right _ _
          | cons provider rest =>
              dsimp only
              cases hl : lookupStr bks provider with
              | none => exact ih sel rest bks
              | some q0 =>
                  cases q0 with
                  | nil => exact ih sel rest bks
                  | cons r q =>
                      dsimp only
                      by_cases hq : q = []
                      · rw [if_neg (by simp [hq])]
                        have hb := ih (sel ++ [r]) rest (popKey bks provider)
                        have hsum := sum_countP_popKey P bks provider r (by rw [hl, hq])
                        have hsel : (sel ++ [r]).countP P
                            = sel.countP P + (if P r then 1 else 0) := by
                          simp [List.countP_append, List.countP_cons]
                        omega
                      · rw [if_pos hq]
                        have hb := ih (sel ++ [r]) (rest ++ [provider]) (setKey bks provider q)
                        have hsum := sum_countP_setKey_pop P bks provider r q hl
                        have hsel : (sel ++ [r]).countP P
                            = sel.countP P + (if P r then 1 else 0) := by
                          simp [List.countP_append, List.countP_cons]
                        omega
        exact hmain (if act = [] then
          porder.filter (fun prov => !((lookupStr bks prov).getD []).isEmpty) else act)
      · rw [if_neg hc]
        exact Nat.le_add_right _ _

theorem balanced_trim_countP_le (pref : List String) (records : List MetadataRecord)
    (limit : Int) (P : MetadataRecord → Bool) :
    (balanced_trim pref records limit).countP P ≤ records.countP P := by
  unfold balanced_trim
  by_cases hg : (limit ≤ 0 ∨ (records.length : Int) ≤ limit)
  · rw [if_pos hg]
  · rw [if_neg hg]
    refine le_trans
      (trimLoop_countP_le P limit
        (preferredOrder pref ((trimBuckets records).map Prod.fst)) _ []
        (preferredOrder pref ((trimBuckets records).map Prod.fst)) (trimBuckets records)) ?_
    simp [trimBuckets_sum_countP]

/-- C8 counterexample: processing a batch that holds both `X` and `" x "`
(identical non-empty identifiers up to case and whitespace) through a run
whose effective cap is 1 merges them into one record, but the quota trim then
drops that record entirely: the output retains zero records with that
identifier, not exactly one. -/
theorem fetch_metadata_dedup_counterexample :
    (insertedRecords c8Cfg c8Oracle "q" 1 "alpha").countP
        (fun r => decide (hasNormDoi "x" r)) = 2
    ∧ (fetch_metadata c8Cfg c8Oracle "q" 1).countP
        (fun r => decide (hasNormDoi "x" r)) = 0 := by
  refine ⟨by decide, by decide⟩

/-- C8 (amended): when two records with identical non-empty identifiers up to
case and surrounding whitespace both enter the aggregation run through
provider batches, the output list retains at most one record with that
identifier — both are never retained — and exactly one whenever the merged
result set does not exceed the effective cap (so the quota trim, which may
drop whole records, does not run). -/
theorem fetch_metadata_dedup_amended
    (cfg : FetchConfig) (oracle : ProviderOracle) (query : String) (max_results : Int)
    (normId : String) (r1 r2 : MetadataRecord) (prov1 prov2 : String)
    (hp1 : prov1 ∈ cfg.providers)
    (hr1 : r1 ∈ insertedRecords cfg oracle query max_results prov1)
    (hn1 : hasNormDoi normId r1)
    (hp2 : prov2 ∈ cfg.providers)
    (hr2 : r2 ∈ insertedRecords cfg oracle query max_results prov2)
    (hn2 : hasNormDoi normId r2) :
    ((fetch_metadata cfg oracle query max_results).countP
        (fun r => decide (hasNormDoi normId r)) ≤ 1)
    ∧ (((mergedResults cfg oracle query max_results).length : Int)
          ≤ effectiveCap cfg max_results →
        (fetch_metadata cfg oracle query max_results).countP
          (fun r => decide (hasNormDoi normId r)) = 1) := by
  have hinit1 : ((([], []) : List (String × MetadataRecord) × List (String × String)).1.map
      Prod.fst).Nodup := by simp
  have hinit2 : ∀ kv ∈ (([], []) : List (String × MetadataRecord)
      × List (String × String)).1, hasNormDoi normId kv.2 → kv.1 = "doi::" ++ normId := by
    simp
  have hinit3 : ∀ v, lookupStr (([], []) : List (String × MetadataRecord)
      × List (String × String)).1 ("doi::" ++ normId) = some v → hasNormDoi normId v := by
    intro v hv
    simp [lookupStr] at hv
  obtain ⟨fN, fO, fG, _⟩ := fetchFold_inv cfg oracle query max_results normId
    cfg.providers ([], []) hinit1 hinit2 hinit3
  have hpres := fetchFold_presence cfg oracle query max_results normId cfg.providers
    prov1 r1 hr1 hn1 ([], []) hp1 hinit1 hinit2 hinit3
  have hcount := countP_values_of_inv normId
    (fetchBuckets cfg oracle query max_results).1 fN fO fG
  constructor
  · unfold fetch_metadata
    by_cases htrim : ((mergedResults cfg oracle query max_results).length : Int)
        > effectiveCap cfg max_results
    · rw [if_pos htrim]
      exact le_trans (balanced_trim_countP_le _ _ _ _) hcount.1
    · rw [if_neg htrim]
      exact hcount.1
  · intro hle
    unfold fetch_metadata
    rw [if_neg (not_lt.mpr hle)]
    exact hcount.2 hpres

theorem fetch_metadata_dedup_amended_witness :
    "alpha" ∈ c8Cfg.providers
    ∧ ({ doi := "X", source := "alpha" } : MetadataRecord)
        ∈ insertedRecords c8Cfg c8Oracle "q" 5 "alpha"
    ∧ hasNormDoi "x" ({ doi := "X", source := "alpha" } : MetadataRecord)
    ∧ ({ doi := " x ", source := "alpha" } : MetadataRecord)
        ∈ insertedRecords c8Cfg c8Oracle "q" 5 "alpha"
    ∧ hasNormDoi "x" ({ doi := " x ", source := "alpha" } : MetadataRecord)
    ∧ (fetch_metadata c8Cfg c8Oracle "q" 5).countP
        (fun r => decide (hasNormDoi "x" r)) ≤ 1 := by
  refine ⟨by decide, by decide, by decide, by decide, by decide, ?_⟩
  exact (fetch_metadata_dedup_amended c8Cfg c8Oracle "q" 5 "x"
    { doi := "X", source := "alpha" } { doi := " x ", source := "alpha" } "alpha" "alpha"
    (by decide) (by decide) (by decide) (by decide) (by decide) (by decide)).1

/-- C2 counterexample: with fallback order `[alpha, beta]` and an initial
guess of `beta`, the candidate queue is `[beta, alpha]`; when beta's attempt
fails, alpha's phase has already passed in the single-pass outer loop, so the
identifier is never attempted by its second candidate during the run. -/
theorem scheduler_single_attempt_counterexample :
    candidateSequence (buildFallbackOrder ["alpha", "beta"] ["alpha", "beta"])
        (some "beta") = ["beta", "alpha"]
    ∧ attemptsOf (download_fulltexts ["alpha", "beta"] ["alpha", "beta"] (some "beta")
        ["d1"] (fun _ _ => none)).trace "d1" = ["beta"]
    ∧ "alpha" ∉ attemptsOf (download_fulltexts ["alpha", "beta"] ["alpha", "beta"]
        (some "beta") ["d1"] (fun _ _ => none)).trace "d1" := by
  refine ⟨by decide, by decide, by decide⟩

theorem buildFallbackOrder_nodup (configured registered : List String) :
    (buildFallbackOrder configured registered).Nodup := by
  unfold buildFallbackOrder
  have h1 : ∀ (l acc : List String), acc.Nodup →
      (l.foldl (fun acc name =>
        if name ∈ registered ∧ name ≠ "scihub" ∧ name ∉ acc then acc ++ [name] else acc)
        acc).Nodup := by
    intro l
    induction l with
    | nil => intro acc h; exact h
    | cons x xs ih =>
        intro acc h
        rw [List.foldl_cons]
        by_cases hx : x ∈ registered ∧ x ≠ "scihub" ∧ x ∉ acc
        · rw [if_pos hx]
          refine ih _ ?_
          simp [List.nodup_append, h, hx.2.2]
        · rw [if_neg hx]
          exact ih _ h
  have h2 : ∀ (l acc : List String), acc.Nodup →
      (l.foldl (fun acc name =>
        if name = "scihub" ∨ name ∈ acc then acc else acc ++ [name]) acc).Nodup := by
    intro l
    induction l with
    | nil => intro acc h; exact h
    | cons x xs ih =>
        intro acc h
        rw [List.foldl_cons]
        by_cases hx : x = "scihub" ∨ x ∈ acc
        · rw [if_pos hx]
          exact ih _ h
        · rw [if_neg hx]
          push_neg at hx
          refine ih _ ?_
          simp [List.nodup_append, h, hx.2]
  exact h2 _ _ (h1 _ [] List.nodup_nil)

theorem scihub_not_mem_fallbackOrder (configured registered : List String) :
    "scihub" ∉ buildFallbackOrder configured registered := by
  unfold buildFallbackOrder
  have h1 : ∀ (l acc : List String), "scihub" ∉ acc →
      "scihub" ∉ (l.foldl (fun acc name =>
        if name ∈ registered ∧ name ≠ "scihub" ∧ name ∉ acc then acc ++ [name] else acc)
        acc) := by
    intro l
    induction l with
    | nil => intro acc h; exact h
    | cons x xs ih =>
        intro acc h
        rw [List.foldl_cons]
        by_cases hx : x ∈ registered ∧ x ≠ "scihub" ∧ x ∉ acc
        · rw [if_pos hx]
          refine ih _ ?_
          simp [h, Ne.symm hx.2.1]
        · rw [if_neg hx]
          exact ih _ h
  have h2 : ∀ (l acc : List String), "scihub" ∉ acc →
      "scihub" ∉ (l.foldl (fun acc name =>
        if name = "scihub" ∨ name ∈ acc then acc else acc ++ [name]) acc) := by
    intro l
    induction l with
    | nil => intro acc h; exact h
    | cons x xs ih =>
        intro acc h
        rw [List.foldl_cons]
        by_cases hx : x = "scihub" ∨ x ∈ acc
        · rw [if_pos hx]
          exact ih _ h
        · rw [if_neg hx]
          push_neg at hx
          refine ih _ ?_
          simp [h, Ne.symm hx.1]
  exact h2 _ _ (h1 _ [] (List.not_mem_nil _))

theorem initPlan_keys_sub (configured registered : List String)
    (providerArg : Option String) (dois : List String) (d : String)
    (h : d ∈ (initPlanOf configured registered providerArg dois).map Prod.fst) :
    d ∈ doiOrderOf providerArg dois := by
  unfold initPlanOf at h
  unfold doiOrderOf
  have hgen : ∀ (l : List (String × Option String)) (acc : List (String × List String)),
      d ∈ (l.foldl (fun m p =>
        let candidates := candidateSequence (buildFallbackOrder configured registered) p.2
        if candidates = [] then m else m ++ [(p.1, candidates)]) acc).map Prod.fst →
      d ∈ acc.map Prod.fst ∨ d ∈ l.map Prod.fst := by
    intro l
    induction l with
    | nil => intro acc h2; exact Or.inl h2
    | cons p ps ih =>
        intro acc h2
        rw [List.foldl_cons] at h2
        rcases ih _ h2 with h3 | h3
        · by_cases hc : candidateSequence (buildFallbackOrder configured registered) p.2 = []
          · simp only [hc, if_pos rfl] at h3
            exact Or.inl h3
          · simp only [if_neg hc] at h3
            rw [List.map_append] at h3
            rcases List.mem_append.mp h3 with h4 | h4
            · exact Or.inl h4
            · right
              simp only [List.map_cons, List.mem_cons]
              left
              simpa using h4
        · right
          exact List.mem_cons_of_mem _ h3
  rcases hgen _ [] h with h2 | h2
  · simp at h2
  · exact h2

theorem dedupRecords_keys_nodup (raw : List (String × String)) :
    ((dedupRecords raw).map Prod.fst).Nodup := by
  unfold dedupRecords
  have hgen : ∀ (l : List (String × String)) (st : List String × List (String × Option String)),
      st.2.map Prod.fst = st.1 → st.1.Nodup →
      (((l.foldl (fun st p =>
          let doi_clean := strTrim p.1
          if doi_clean = "" ∨ doi_clean ∈ st.1 then st
          else (st.1 ++ [doi_clean],
            st.2 ++ [(doi_clean, if strLower p.2 = "" then none else some (strLower p.2))]))
        st).2).map Prod.fst).Nodup := by
    intro l
    induction l with
    | nil =>
        intro st h1 h2
        simp only [List.foldl_nil]
        rw [h1]
        exact h2
    | cons p ps ih =>
        intro st h1 h2
        rw [List.foldl_cons]
        by_cases hc : strTrim p.1 = "" ∨ strTrim p.1 ∈ st.1
        · simp only [if_pos hc]
          exact ih st h1 h2
        · simp only [if_neg hc]
          push_neg at hc
          refine ih _ ?_ ?_
          · simp [h1]
          · simp [List.nodup_append, h2, hc.2]
  exact hgen raw ([], []) rfl List.nodup_nil

theorem doiOrder_nodup (providerArg : Option String) (dois : List String) :
    (doiOrderOf providerArg dois).Nodup := by
  unfold doiOrderOf dedupedOf
  exact dedupRecords_keys_nodup _

theorem applyResult_other (fetch : String → String → Option String) (B : String)
    (st : SchedState) (e d : String) (h : e ≠ d) :
    lookupStr (applyResult fetch B st e).plan d = lookupStr st.plan d
    ∧ lookupStr (applyResult fetch B st e).succ d = lookupStr st.succ d := by
  have hne : d ≠ e := fun h2 => h h2.symm
  unfold applyResult
  cases fetch B e with
  | some p =>
      constructor
      · simp only
        rw [lookupStr_setKey_ne _ _ _ _ hne, lookupStr_setKey_ne _ _ _ _ hne]
      · simp only
        rw [lookupStr_setKey_ne _ _ _ _ hne]
  | none =>
      constructor
      · simp only
        rw [lookupStr_setKey_ne _ _ _ _ hne]
      · simp only

theorem foldBatch_other (fetch : String → String → Option String) (B : String)
    (batch : List String) (d : String) (hd : d ∉ batch) :
    ∀ st : SchedState,
      lookupStr (batch.foldl (applyResult fetch B) st).plan d = lookupStr st.plan d
      ∧ lookupStr (batch.foldl (applyResult fetch B) st).succ d = lookupStr st.succ d := by
  induction batch with
  | nil => intro st; exact ⟨rfl, rfl⟩
  | cons e es ih =>
      intro st
      have hde : e ≠ d := fun h2 => hd (by rw [h2]; exact List.mem_cons_self _ _)
      have hes : d ∉ es := fun h2 => hd (List.mem_cons_of_mem _ h2)
      rw [List.foldl_cons]
      obtain ⟨ih1, ih2⟩ := ih hes (applyResult fetch B st e)
      obtain ⟨a1, a2⟩ := applyResult_other fetch B st e d hde
      exact ⟨by rw [ih1, a1], by rw [ih2, a2]⟩

theorem applyResult_fail_at (fetch : String → String → Option String) (B : String)
    (st : SchedState) (d : String) (q : List String)
    (hplan : lookupStr st.plan d = some q) (hfail : fetch B d = none) :
    lookupStr (applyResult fetch B st d).plan d = some q.tail
    ∧ lookupStr (applyResult fetch B st d).succ d = lookupStr st.succ d := by
  unfold applyResult
  rw [hfail]
  constructor
  · simp only
    rw [hplan]
    simp [lookupStr_setKey_self]
  · simp only

theorem foldBatch_fail (fetch : String → String → Option String) (B : String)
    (u w : List String) (d : String) (q : List String)
    (hu : d ∉ u) (hw : d ∉ w) (hfail : fetch B d = none) :
    ∀ st : SchedState, lookupStr st.plan d = some q →
      lookupStr ((u ++ d :: w).foldl (applyResult fetch B) st).plan d = some q.tail
      ∧ lookupStr ((u ++ d :: w).foldl (applyResult fetch B) st).succ d
        = lookupStr st.succ d := by
  intro st hplan
  rw [List.foldl_append]
  obtain ⟨u1, u2⟩ := foldBatch_other fetch B u d hu st
  rw [List.foldl_cons]
  have hplanu : lookupStr ((u.foldl (applyResult fetch B) st)).plan d = some q := by
    rw [u1, hplan]
  obtain ⟨happ1, happ2⟩ :=
    applyResult_fail_at fetch B (u.foldl (applyResult fetch B) st) d q hplanu hfail
  obtain ⟨w1, w2⟩ := foldBatch_other fetch B w d hw
    (applyResult fetch B (u.foldl (applyResult fetch B) st) d)
  exact ⟨by rw [w1, happ1], by rw [w2, happ2, u2]⟩

theorem mem_phaseBatch_of (doiOrder : List String) (st : SchedState) (B d : String)
    (t : List String) (hdo : d ∈ doiOrder)
    (hp : lookupStr st.plan d = some (B :: t))
    (hs : lookupStr st.succ d = none) :
    d ∈ phaseBatch doiOrder st B := by
  unfold phaseBatch
  rw [List.mem_filter]
  refine ⟨hdo, ?_⟩
  rw [hp, hs]
  simp

theorem not_mem_phaseBatch (doiOrder : List String) (st : SchedState) (B d h0 : String)
    (t : List String)
    (hp : lookupStr st.plan d = some (h0 :: t)) (hB : h0 ≠ B) :
    d ∉ phaseBatch doiOrder st B := by
  unfold phaseBatch
  intro hmem
  have := (List.mem_filter.mp hmem).2
  rw [hp] at this
  cases hsucc : lookupStr st.succ d with
  | none =>
      rw [hsucc] at this
      simp only [beq_iff_eq] at this
      exact hB this
  | some p =>
      rw [hsucc] at this
      simp at this

theorem runPhases_cons_eq (fetch : String → String → Option String)
    (doiOrder : List String) (B : String) (rest : List String) (st : SchedState) :
    runPhases fetch doiOrder (B :: rest) st
    = ((runPhases fetch doiOrder rest (runPhase fetch doiOrder st B).1).1,
       (runPhase fetch doiOrder st B).2
         :: (runPhases fetch doiOrder rest (runPhase fetch doiOrder st B).1).2) := rfl

theorem runPhases_append_eq (fetch : String → String → Option String)
    (doiOrder : List String) (L1 L2 : List String) :
    ∀ st : SchedState,
      runPhases fetch doiOrder (L1 ++ L2) st
      = ((runPhases fetch doiOrder L2 (runPhases fetch doiOrder L1 st).1).1,
         (runPhases fetch doiOrder L1 st).2
           ++ (runPhases fetch doiOrder L2 (runPhases fetch doiOrder L1 st).1).2) := by
  induction L1 with
  | nil => intro st; simp [runPhases]
  | cons B bs ih =>
      intro st
      rw [List.cons_append, runPhases_cons_eq, ih, runPhases_cons_eq]
      rfl

theorem attemptsOf_append (t1 t2 : List (String × List String)) (d : String) :
    attemptsOf (t1 ++ t2) d = attemptsOf t1 d ++ attemptsOf t2 d := by
  unfold attemptsOf
  rw [List.filterMap_append]

theorem attemptsOf_runPhases_sub (fetch : String → String → Option String)
    (doiOrder : List String) (d : String) (L : List String) :
    ∀ (st : SchedState) (x : String),
      x ∈ attemptsOf (runPhases fetch doiOrder L st).2 d → x ∈ L := by
  induction L with
  | nil => intro st x hx; simp [runPhases, attemptsOf] at hx
  | cons B rest ih =>
      intro st x hx
      rw [runPhases_cons_eq] at hx
      unfold attemptsOf at hx
      rw [List.filterMap_cons] at hx
      by_cases hd : d ∈ (runPhase fetch doiOrder st B).2.2
      · rw [if_pos hd] at hx
        rcases List.mem_cons.mp hx with h2 | h2
        · rw [h2]
          exact List.mem_cons_self _ _
        · exact List.mem_cons_of_mem _ (ih _ x h2)
      · rw [if_neg hd] at hx
        exact List.mem_cons_of_mem _ (ih _ x hx)

theorem runPhases_skip (fetch : String → String → Option String)
    (doiOrder : List String) (d h0 : String) (t : List String) (L : List String)
    (hL : h0 ∉ L) :
    ∀ st : SchedState,
      lookupStr st.plan d = some (h0 :: t) →
      lookupStr st.succ d = none →
      lookupStr (runPhases fetch doiOrder L st).1.plan d = some (h0 :: t)
      ∧ lookupStr (runPhases fetch doiOrder L st).1.succ d = none
      ∧ attemptsOf (runPhases fetch doiOrder L st).2 d = [] := by
  induction L with
  | nil =>
      intro st hp hs
      exact ⟨hp, hs, rfl⟩
  | cons B rest ih =>
      intro st hp hs
      have hB : h0 ≠ B := fun h2 => hL (by rw [h2]; exact List.mem_cons_self _ _)
      have hrest : h0 ∉ rest := fun h2 => hL (List.mem_cons_of_mem _ h2)
      have hnotb : d ∉ phaseBatch doiOrder st B := not_mem_phaseBatch doiOrder st B d h0 t hp hB
      obtain ⟨f1, f2⟩ := foldBatch_other fetch B (phaseBatch doiOrder st B) d hnotb st
      have hstate : lookupStr (runPhase fetch doiOrder st B).1.plan d = some (h0 :: t)
          ∧ lookupStr (runPhase fetch doiOrder st B).1.succ d = none := by
        unfold runPhase
        exact ⟨by rw [f1, hp], by rw [f2, hs]⟩
      obtain ⟨r1, r2, r3⟩ := ih hrest (runPhase fetch doiOrder st B).1 hstate.1 hstate.2
      rw [runPhases_cons_eq]
      refine ⟨r1, r2, ?_⟩
      unfold attemptsOf
      rw [List.filterMap_cons]
      have hbatch : d ∉ (runPhase fetch doiOrder st B).2.2 := hnotb
      rw [if_neg hbatch]
      exact r3

theorem runPhase_fail (fetch : String → String → Option String)
    (doiOrder : List String) (st : SchedState) (B d : String) (t : List String)
    (hnd : doiOrder.Nodup) (hdo : d ∈ doiOrder)
    (hp : lookupStr st.plan d = some (B :: t))
    (hs : lookupStr st.succ d = none)
    (hfail : fetch B d = none) :
    lookupStr (runPhase fetch doiOrder st B).1.plan d = some t
    ∧ lookupStr (runPhase fetch doiOrder st B).1.succ d = none
    ∧ d ∈ (runPhase fetch doiOrder st B).2.2 := by
  have hmem : d ∈ phaseBatch doiOrder st B := mem_phaseBatch_of doiOrder st B d t hdo hp hs
  have hbn : (phaseBatch doiOrder st B).Nodup := List.Nodup.filter _ hnd
  obtain ⟨u, w, hsplit⟩ := List.append_of_mem hmem
  have hnd2 : (u ++ d :: w).Nodup := by rw [← hsplit]; exact hbn
  have hu : d ∉ u := by
    have := (List.nodup_append.mp hnd2).2.2
    intro h2
    exact this h2 (List.mem_cons_self _ _)
  have hw : d ∉ w := by
    have := (List.nodup_append.mp hnd2).2.1
    exact (List.nodup_cons.mp this).1
  have hphase : runPhase fetch doiOrder st B
      = ((phaseBatch doiOrder st B).foldl (applyResult fetch B) st,
         (B, phaseBatch doiOrder st B)) := rfl
  obtain ⟨g1, g2⟩ := foldBatch_fail fetch B u w d (B :: t) hu hw hfail st hp
  refine ⟨?_, ?_, ?_⟩
  · rw [hphase]
    dsimp only
    rw [hsplit]
    exact g1
  · rw [hphase]
    dsimp only
    rw [hsplit, g2, hs]
  · rw [hphase]
    dsimp only
    exact hmem


theorem runPhase_event (fetch : String → String → Option String)
    (doiOrder : List String) (st : SchedState) (B : String) :
    (runPhase fetch doiOrder st B).2 = (B, phaseBatch doiOrder st B) := rfl

theorem runPhases_append_trace (fetch : String → String → Option String)
    (doiOrder : List String) (L1 L2 : List String) (st : SchedState) :
    (runPhases fetch doiOrder (L1 ++ L2) st).2
    = (runPhases fetch doiOrder L1 st).2
      ++ (runPhases fetch doiOrder L2 (runPhases fetch doiOrder L1 st).1).2 := by
  rw [runPhases_append_eq]

theorem runPhases_cons_trace (fetch : String → String → Option String)
    (doiOrder : List String) (B : String) (L : List String) (st : SchedState) :
    (runPhases fetch doiOrder (B :: L) st).2
    = (runPhase fetch doiOrder st B).2
      :: (runPhases fetch doiOrder L (runPhase fetch doiOrder st B).1).2 := by
  rw [runPhases_cons_eq]

theorem runPhases_append_state (fetch : String → String → Option String)
    (doiOrder : List String) (L1 L2 : List String) (st : SchedState) :
    (runPhases fetch doiOrder (L1 ++ L2) st).1
    = (runPhases fetch doiOrder L2 (runPhases fetch doiOrder L1 st).1).1 := by
  rw [runPhases_append_eq]

theorem runPhases_cons_state (fetch : String → String → Option String)
    (doiOrder : List String) (B : String) (L : List String) (st : SchedState) :
    (runPhases fetch doiOrder (B :: L) st).1
    = (runPhases fetch doiOrder L (runPhase fetch doiOrder st B).1).1 := by
  rw [runPhases_cons_eq]

theorem attemptsOf_cons_mem (ev : String × List String)
    (tr : List (String × List String)) (d : String) (h : d ∈ ev.2) :
    attemptsOf (ev :: tr) d = ev.1 :: attemptsOf tr d := by
  simp [attemptsOf, List.filterMap_cons, h]

theorem attemptsOf_single_sub (ev : String × List String) (d x : String)
    (h : x ∈ attemptsOf [ev] d) : x = ev.1 := by
  unfold attemptsOf at h
  rw [List.filterMap_cons] at h
  by_cases hd : d ∈ ev.2
  · rw [if_pos hd] at h
    simpa using h
  · rw [if_neg hd] at h
    simp at h

/-- C2 (amended): in a run of the download scheduler, for a task whose
candidate queue starts `p1, p2, ...`: if `p1`'s attempt fails, the task is
never attempted by `p1` again (the attempt list is exactly `p1` followed by
later backends, because each backend attempt pops the queue head exactly
once), and it is attempted by `p2` in a later phase of the same run provided
`p2` occurs after `p1` in the fixed fallback order (the split hypothesis);
when `p2`'s phase precedes `p1`'s, the single-pass outer loop has already
passed it and the task skips to the last-resort phase, as the counterexample
shows. -/
theorem scheduler_single_attempt_amended
    (configured registered : List String) (providerArg : Option String)
    (dois : List String) (fetch : String → String → Option String)
    (d p1 p2 : String) (rest : List String) (A B C : List String)
    (hsplit : buildFallbackOrder configured registered = A ++ p1 :: B ++ p2 :: C)
    (hq : lookupStr (initPlanOf configured registered providerArg dois) d
        = some (p1 :: p2 :: rest))
    (hfail : fetch p1 d = none) :
    ∃ post, attemptsOf (download_fulltexts configured registered providerArg dois
        fetch).trace d = p1 :: post ∧ p1 ∉ post ∧ p2 ∈ post := by
  have hd_keys : d ∈ (initPlanOf configured registered providerArg dois).map Prod.fst :=
    lookupStr_some_mem_keys _ _ _ hq
  have hdo : d ∈ doiOrderOf providerArg dois :=
    initPlan_keys_sub configured registered providerArg dois d hd_keys
  have hnddoi : (doiOrderOf providerArg dois).Nodup := doiOrder_nodup providerArg dois
  have hndfb : (A ++ p1 :: B ++ p2 :: C).Nodup := by
    rw [← hsplit]
    exact buildFallbackOrder_nodup configured registered
  have h1 := List.nodup_append.mp hndfb
  have h2 := List.nodup_append.mp h1.1
  have hp1A : p1 ∉ A := fun h => h2.2.2 h (List.mem_cons_self _ _)
  have hp1left : p1 ∈ A ++ p1 :: B :=
    List.mem_append.mpr (Or.inr (List.mem_cons_self _ _))
  have hp1p2 : p1 ≠ p2 := fun h =>
    h1.2.2 hp1left (by rw [h]; exact List.mem_cons_self _ _)
  have hp1C : p1 ∉ C := fun h => h1.2.2 hp1left (List.mem_cons_of_mem _ h)
  have hp2B : p2 ∉ B := fun h =>
    h1.2.2 (List.mem_append.mpr (Or.inr (List.mem_cons_of_mem _ h)))
      (List.mem_cons_self _ _)
  have hp1fb : p1 ∈ A ++ p1 :: B ++ p2 :: C := List.mem_append.mpr (Or.inl hp1left)
  have hsplit2 : buildFallbackOrder configured registered
      = A ++ (p1 :: (B ++ p2 :: C)) := by
    rw [hsplit, List.append_assoc, List.cons_append]
  have hscifb : "scihub" ∉ A ++ p1 :: B ++ p2 :: C := by
    rw [← hsplit]
    exact scihub_not_mem_fallbackOrder configured registered
  have hp1sci : p1 ≠ "scihub" := fun h => hscifb (by rw [← h]; exact hp1fb)
  have hfb_ne : ¬(buildFallbackOrder configured registered = []) := by
    rw [hsplit]
    intro h
    rw [h] at hp1fb
    exact List.not_mem_nil p1 hp1fb
  have hded_ne : ¬(dedupedOf providerArg dois = []) := by
    intro h
    unfold doiOrderOf at hdo
    rw [h] at hdo
    exact List.not_mem_nil d (by simpa using hdo)
  have hplan_ne : ¬(initPlanOf configured registered providerArg dois = []) := by
    intro h
    rw [h] at hq
    cases hq
  obtain ⟨a1, a2, a3⟩ := runPhases_skip fetch (doiOrderOf providerArg dois) d p1
    (p2 :: rest) A hp1A ⟨initPlanOf configured registered providerArg dois, []⟩ hq rfl
  obtain ⟨b1, b2, b3⟩ := runPhase_fail fetch (doiOrderOf providerArg dois)
    (runPhases fetch (doiOrderOf providerArg dois) A
      ⟨initPlanOf configured registered providerArg dois, []⟩).1 p1 d (p2 :: rest)
    hnddoi hdo a1 a2 hfail
  obtain ⟨c1, c2, c3⟩ := runPhases_skip fetch (doiOrderOf providerArg dois) d p2 rest
    B hp2B (runPhase fetch (doiOrderOf providerArg dois)
      (runPhases fetch (doiOrderOf providerArg dois) A
        ⟨initPlanOf configured registered providerArg dois, []⟩).1 p1).1 b1 b2
  have hd2 : d ∈ phaseBatch (doiOrderOf providerArg dois)
      (runPhases fetch (doiOrderOf providerArg dois) B
        (runPhase fetch (doiOrderOf providerArg dois)
          (runPhases fetch (doiOrderOf providerArg dois) A
            ⟨initPlanOf configured registered providerArg dois, []⟩).1 p1).1).1 p2 :=
    mem_phaseBatch_of _ _ p2 d rest hdo c1 c2
  have heq : attemptsOf (runPhases fetch (doiOrderOf providerArg dois)
      (buildFallbackOrder configured registered)
      ⟨initPlanOf configured registered providerArg dois, []⟩).2 d
      = p1 :: p2 :: attemptsOf (runPhases fetch (doiOrderOf providerArg dois) C
        (runPhase fetch (doiOrderOf providerArg dois)
          (runPhases fetch (doiOrderOf providerArg dois) B
            (runPhase fetch (doiOrderOf providerArg dois)
              (runPhases fetch (doiOrderOf providerArg dois) A
                ⟨initPlanOf configured registered providerArg dois, []⟩).1 p1).1).1 p2).1).2 d := by
    rw [hsplit2, runPhases_append_trace, attemptsOf_append, a3, List.nil_append]
    rw [runPhases_cons_trace]
    rw [attemptsOf_cons_mem _ _ d b3, runPhase_event]
    rw [runPhases_append_trace, attemptsOf_append, c3, List.nil_append]
    rw [runPhases_cons_trace]
    rw [attemptsOf_cons_mem _ _ d (by rw [runPhase_event]; exact hd2), runPhase_event]
  have hsubC : ∀ x ∈ attemptsOf (runPhases fetch (doiOrderOf providerArg dois) C
      (runPhase fetch (doiOrderOf providerArg dois)
        (runPhases fetch (doiOrderOf providerArg dois) B
          (runPhase fetch (doiOrderOf providerArg dois)
            (runPhases fetch (doiOrderOf providerArg dois) A
              ⟨initPlanOf configured registered providerArg dois, []⟩).1 p1).1).1 p2).1).2 d,
      x ∈ C :=
    fun x hx => attemptsOf_runPhases_sub fetch (doiOrderOf providerArg dois) d C _ x hx
  unfold download_fulltexts
  simp only [if_neg hfb_ne, if_neg hded_ne, if_neg hplan_ne]
  cases hsci : scihubProvider registered with
  | none =>
      simp only
      refine ⟨p2 :: attemptsOf (runPhases fetch (doiOrderOf providerArg dois) C
        (runPhase fetch (doiOrderOf providerArg dois)
          (runPhases fetch (doiOrderOf providerArg dois) B
            (runPhase fetch (doiOrderOf providerArg dois)
              (runPhases fetch (doiOrderOf providerArg dois) A
                ⟨initPlanOf configured registered providerArg dois, []⟩).1 p1).1).1 p2).1).2 d,
        heq, ?_, List.mem_cons_self _ _⟩
      intro hmem
      rcases List.mem_cons.mp hmem with h4 | h4
      · exact hp1p2 h4
      · exact hp1C (hsubC p1 h4)
  | some sci =>
      have hsciname : sci = "scihub" := by
        unfold scihubProvider at hsci
        by_cases hm : "scihub" ∈ registered
        · rw [if_pos hm] at hsci
          injection hsci with h5
          exact h5.symm
        · rw [if_neg hm] at hsci
          cases hsci
      by_cases hpend : (doiOrderOf providerArg dois).filter
          (fun x => (lookupStr (runPhases fetch (doiOrderOf providerArg dois)
            (buildFallbackOrder configured registered)
            ⟨initPlanOf configured registered providerArg dois, []⟩).1.succ x).isNone) ≠ []
      · simp only [if_pos hpend]
        refine ⟨p2 :: (attemptsOf (runPhases fetch (doiOrderOf providerArg dois) C
            (runPhase fetch (doiOrderOf providerArg dois)
              (runPhases fetch (doiOrderOf providerArg dois) B
                (runPhase fetch (doiOrderOf providerArg dois)
                  (runPhases fetch (doiOrderOf providerArg dois) A
                    ⟨initPlanOf configured registered providerArg dois, []⟩).1 p1).1).1 p2).1).2 d
            ++ attemptsOf [(sci, (doiOrderOf providerArg dois).filter
              (fun x => (lookupStr (runPhases fetch (doiOrderOf providerArg dois)
                (buildFallbackOrder configured registered)
                ⟨initPlanOf configured registered providerArg dois, []⟩).1.succ x).isNone))] d),
          ?_, ?_, List.mem_cons_self _ _⟩
        · rw [attemptsOf_append, heq]
          rfl
        · intro hmem
          rcases List.mem_cons.mp hmem with h4 | h4
          · exact hp1p2 h4
          · rcases List.mem_append.mp h4 with h5 | h5
            · exact hp1C (hsubC p1 h5)
            · have := attemptsOf_single_sub _ d p1 h5
              rw [hsciname] at this
              exact hp1sci this
      · simp only [if_neg hpend]
        refine ⟨p2 :: attemptsOf (runPhases fetch (doiOrderOf providerArg dois) C
          (runPhase fetch (doiOrderOf providerArg dois)
            (runPhases fetch (doiOrderOf providerArg dois) B
              (runPhase fetch (doiOrderOf providerArg dois)
                (runPhases fetch (doiOrderOf providerArg dois) A
                  ⟨initPlanOf configured registered providerArg dois, []⟩).1 p1).1).1 p2).1).2 d,
          heq, ?_, List.mem_cons_self _ _⟩
        intro hmem
        rcases List.mem_cons.mp hmem with h4 | h4
        · exact hp1p2 h4
        · exact hp1C (hsubC p1 h4)

theorem scheduler_single_attempt_amended_witness :
    buildFallbackOrder ["alpha", "beta"] ["alpha", "beta"]
      = [] ++ "alpha" :: [] ++ "beta" :: []
    ∧ lookupStr (initPlanOf ["alpha", "beta"] ["alpha", "beta"] (some "alpha") ["d1"]) "d1"
      = some ("alpha" :: "beta" :: [])
    ∧ c2Fetch "alpha" "d1" = none
    ∧ ∃ post, attemptsOf (download_fulltexts ["alpha", "beta"] ["alpha", "beta"]
        (some "alpha") ["d1"] c2Fetch).trace "d1" = "alpha" :: post
        ∧ "alpha" ∉ post ∧ "beta" ∈ post :=
  ⟨by decide, by decide, by decide,
   scheduler_single_attempt_amended ["alpha", "beta"] ["alpha", "beta"] (some "alpha")
     ["d1"] c2Fetch "d1" "alpha" "beta" [] [] [] [] (by decide) (by decide) (by decide)⟩
